import Mathlib

/-!
Verification of the launch-option extraction and deduplication pipeline of the
vanilla-slops scraper (`src/scripts/slop_scraper`).  The Python sources are
shallowly embedded: text is `List Char` (wrapped in `String` at the record
boundaries), dictionaries parsed from JSON are association lists with `String`
keys, fallible Python code returns `Option`, and the external network is an
explicit function argument.  Each embedded definition names the Python
function it translates.
-/

namespace SlopScraper

/-- Whitespace recognised by Python's `str.strip` / `\s` (ASCII fragment:
space, tab, newline, carriage return, vertical tab, form feed). -/
def isPySpace (c : Char) : Bool :=
  c == ' ' || c == '\t' || c == '\n' || c == '\r' || c == '\x0b' || c == '\x0c'

/-- ASCII lowercasing of one character, modelling Python `str.lower` on the
ASCII strings this program manipulates. -/
def pyLowerChar (c : Char) : Char :=
  if 65 ≤ c.toNat ∧ c.toNat ≤ 90 then Char.ofNat (c.toNat + 32) else c

/-- Lowercase a character list (Python `str.lower`). -/
def pyLowerL (l : List Char) : List Char := l.map pyLowerChar

/-- Strip leading and trailing Python whitespace (Python `str.strip()`). -/
def pyStripL (l : List Char) : List Char :=
  ((l.dropWhile isPySpace).reverse.dropWhile isPySpace).reverse

/-- Substring test: does `needle` occur contiguously inside `hay`?
Models Python's `needle in hay` on strings. -/
def containsSub (needle : List Char) : List Char → Bool
  | [] => needle.isEmpty
  | c :: rest => needle.isPrefixOf (c :: rest) || containsSub needle rest

/-- Split at the first occurrence of `sep` (Python `s.split(sep, 1)` when the
separator occurs; `none` when it does not). -/
def splitOnceL (sep : List Char) : List Char → Option (List Char × List Char)
  | [] => if sep.isEmpty then some ([], []) else none
  | c :: rest =>
    if sep.isPrefixOf (c :: rest) then
      some ([], (c :: rest).drop sep.length)
    else
      (splitOnceL sep rest).map (fun p => (c :: p.1, p.2))

/-- Fuelled scanner for `replaceAllL`; the fuel bounds the number of input
characters consumed, so `l.length` fuel always suffices. -/
def replaceAllGo (needle repl : List Char) : Nat → List Char → List Char
  | _, [] => []
  | 0, l => l
  | fuel + 1, c :: rest =>
    if ¬needle.isEmpty ∧ needle.isPrefixOf (c :: rest) then
      repl ++ replaceAllGo needle repl fuel ((c :: rest).drop needle.length)
    else
      c :: replaceAllGo needle repl fuel rest

/-- Replace every occurrence of a non-empty `needle` by `repl`, scanning left
to right without overlap (Python `s.replace(needle, repl)`). -/
def replaceAllL (needle repl : List Char) (l : List Char) : List Char :=
  replaceAllGo needle repl l.length l

/-- Replace the first occurrence of a non-empty `needle` by `repl`
(Python `s.replace(needle, repl, 1)`). -/
def replaceFirstL (needle repl : List Char) : List Char → List Char
  | [] => []
  | c :: rest =>
    if ¬needle.isEmpty ∧ needle.isPrefixOf (c :: rest) then
      repl ++ (c :: rest).drop needle.length
    else
      c :: replaceFirstL needle repl rest

/-- Python `str.strip()` on `String`. -/
def pyStrip (s : String) : String := ⟨pyStripL s.toList⟩

/-- Python `str.lower()` on `String` (ASCII model). -/
def pyLower (s : String) : String := ⟨pyLowerL s.toList⟩

/-- Python `needle in hay` on `String`. -/
def pyIn (needle hay : String) : Bool := containsSub needle.toList hay.toList

/-- Python `s.startswith(p)`. -/
def pyStartsWith (s p : String) : Bool := p.toList.isPrefixOf s.toList

/-- Description truncation used by the community-guide extractor:
`desc[:200] + "..." if len(desc) > 200 else desc`. -/
def pyTruncate200 (s : String) : String :=
  if 200 < s.toList.length then ⟨s.toList.take 200⟩ ++ "..." else s

theorem dropWhile_isPySpace_head (l : List Char) (h : l.dropWhile isPySpace ≠ []) :
    ∃ c rest, l.dropWhile isPySpace = c :: rest ∧ isPySpace c = false := by
  induction l with
  | nil => simp [List.dropWhile] at h
  | cons a t ih =>
    by_cases ha : isPySpace a
    · rw [List.dropWhile_cons_of_pos ha] at h ⊢
      exact ih h
    · rw [List.dropWhile_cons_of_neg ha]
      exact ⟨a, t, rfl, by simpa using ha⟩

theorem dropWhile_all_space (l : List Char) (h : ∀ c ∈ l, isPySpace c = true) :
    l.dropWhile isPySpace = [] := by
  induction l with
  | nil => rfl
  | cons a t ih =>
    rw [List.dropWhile_cons_of_pos (h a (by simp))]
    exact ih (fun c hc => h c (by simp [hc]))

theorem dropWhile_ne_nil_of_mem (l : List Char) (c : Char) (hc : c ∈ l)
    (hns : isPySpace c = false) : l.dropWhile isPySpace ≠ [] := by
  intro hnil
  induction l with
  | nil => simp at hc
  | cons a t ih =>
    by_cases ha : isPySpace a
    · rw [List.dropWhile_cons_of_pos ha] at hnil
      rcases List.mem_cons.mp hc with h1 | h2
      · subst h1; rw [ha] at hns; cases hns
      · exact ih h2 hnil
    · rw [List.dropWhile_cons_of_neg ha] at hnil
      cases hnil

/-- A stripped string is non-empty exactly when the original contains a
non-whitespace character. -/
theorem pyStripL_ne_nil_iff (l : List Char) :
    pyStripL l ≠ [] ↔ ∃ c ∈ l, isPySpace c = false := by
  unfold pyStripL
  constructor
  · intro h
    by_contra hall
    push_neg at hall
    have hall' : ∀ c ∈ l, isPySpace c = true := by
      intro c hc
      have := hall c hc
      simpa using this
    rw [dropWhile_all_space l hall'] at h
    simp at h
  · rintro ⟨c, hc, hns⟩
    intro hnil
    have h1 : (l.dropWhile isPySpace).reverse.dropWhile isPySpace = [] := by
      have := congrArg List.reverse hnil
      simpa using this
    have hmem : c ∈ l.dropWhile isPySpace ∨ c ∈ l.takeWhile isPySpace := by
      have : l = l.takeWhile isPySpace ++ l.dropWhile isPySpace :=
        (List.takeWhile_append_dropWhile (p := isPySpace) (l := l)).symm
      rw [this] at hc
      rcases List.mem_append.mp hc with h | h
      · exact Or.inr h
      · exact Or.inl h
    rcases hmem with hmem | hmem
    · have hmem' : c ∈ (l.dropWhile isPySpace).reverse := by simpa using hmem
      exact dropWhile_ne_nil_of_mem _ c hmem' hns h1
    · have := List.mem_takeWhile_imp hmem
      rw [this] at hns
      cases hns

/-- A non-empty stripped string contains a non-whitespace character. -/
theorem pyStripL_has_nonspace (l : List Char) (h : pyStripL l ≠ []) :
    ∃ c ∈ pyStripL l, isPySpace c = false := by
  unfold pyStripL at *
  have hk : (l.dropWhile isPySpace).reverse.dropWhile isPySpace ≠ [] := by
    intro hnil; rw [hnil] at h; simp at h
  rcases dropWhile_isPySpace_head (l.dropWhile isPySpace).reverse hk with ⟨c, rest, hc, hcs⟩
  refine ⟨c, ?_, hcs⟩
  rw [hc]
  simp

/-- Stripping twice still yields a non-empty string. -/
theorem pyStripL_strip_ne_nil (l : List Char) (h : pyStripL l ≠ []) :
    pyStripL (pyStripL l) ≠ [] := by
  rcases pyStripL_has_nonspace l h with ⟨c, hc, hcs⟩
  exact (pyStripL_ne_nil_iff (pyStripL l)).mpr ⟨c, hc, hcs⟩

theorem pyStrip_eq_empty_iff (s : String) : pyStrip s = "" ↔ pyStripL s.toList = [] := by
  unfold pyStrip
  constructor
  · intro h
    have := congrArg String.toList h
    simpa using this
  · intro h
    rw [h]

/-- String-level version: a string whose strip is non-empty strips again to a
non-empty string. -/
theorem pyStrip_strip_ne_empty (s : String) (h : pyStrip s ≠ "") :
    pyStrip (pyStrip s) ≠ "" := by
  intro hcontra
  have h1 : pyStripL s.toList ≠ [] := fun hn => h ((pyStrip_eq_empty_iff s).mpr hn)
  have h2 := pyStripL_strip_ne_nil s.toList h1
  apply h2
  have h3 := (pyStrip_eq_empty_iff (pyStrip s)).mp hcontra
  simpa [pyStrip] using h3

/-- A string containing a non-whitespace character strips to a non-empty
string. -/
theorem pyStrip_ne_empty_of_nonspace (s : String) (c : Char) (hc : c ∈ s.toList)
    (hcs : isPySpace c = false) : pyStrip s ≠ "" := by
  intro hcontra
  exact (pyStripL_ne_nil_iff s.toList).mpr ⟨c, hc, hcs⟩ ((pyStrip_eq_empty_iff s).mp hcontra)

/-- JSON values as produced by Python's `json.load`: objects are insertion
ordered association lists with string keys, numbers are modelled as integers
(the cache blobs this program stores and inspects contain no floats that any
claim depends on). -/
inductive Json where
  | null : Json
  | bool (b : Bool) : Json
  | num (n : Int) : Json
  | str (s : String) : Json
  | arr (items : List Json) : Json
  | obj (entries : List (String × Json)) : Json
deriving Repr, Inhabited

/-- Escape for Python `repr` of a single-quoted string: backslashes and single
quotes are escaped; the control-character escapes of full `repr` are omitted,
which is faithful on the texts this development evaluates `repr` on. -/
def pyReprEscape (l : List Char) : List Char :=
  l.flatMap (fun c =>
    if c = '\\' then ['\\', '\\']
    else if c = '\'' then ['\\', '\'']
    else [c])

/-- Python `repr` of a string value: single quotes preferred, double quotes
when the text contains a single quote but no double quote. -/
def pyReprStr (s : String) : String :=
  if containsSub ['\''] s.toList ∧ ¬containsSub ['"'] s.toList then
    "\"" ++ s ++ "\""
  else
    "'" ++ ⟨pyReprEscape s.toList⟩ ++ "'"

/-- Python `str()` / `repr()` of a value parsed by `json.load` — dictionaries
render with single-quoted keys (`\x7b'k': v\x7d`), `None`/`True`/`False`
capitalised.  Used by `fetch_game_specific_options` via
`str(cache.get(str(app_id), \x7b\x7d)).lower()`. -/
def pyRepr : Json → String
  | Json.null => "None"
  | Json.bool true => "True"
  | Json.bool false => "False"
  | Json.num n => toString n
  | Json.str s => pyReprStr s
  | Json.arr items =>
    "[" ++ String.intercalate ", " (items.attach.map (fun x => pyRepr x.1)) ++ "]"
  | Json.obj entries =>
    "\x7b" ++
      String.intercalate ", "
        (entries.attach.map (fun x => pyReprStr x.1.1 ++ ": " ++ pyRepr x.1.2)) ++
      "\x7d"
decreasing_by
  · have h := List.sizeOf_lt_of_mem x.2
    simp only [Json.arr.sizeOf_spec]
    omega
  · obtain ⟨⟨k, v⟩, hx⟩ := x
    have h := List.sizeOf_lt_of_mem hx
    simp only [Prod.mk.sizeOf_spec] at h
    simp only [Json.obj.sizeOf_spec]
    show sizeOf v < 1 + sizeOf entries
    omega

/-- One raw launch-option record `\x7b'command', 'description', 'source'\x7d`
as built by every extractor. -/
structure RawOption where
  command : String
  description : String
  source : String
deriving DecidableEq, Repr

/-- The in-memory cache: `json.load` of the cache file always yields a
string-keyed dictionary, modelled as an insertion-ordered association list. -/
def Cache := List (String × Json)

/-- Python `==` between an `int` and a `str` key: always `False` (no numeric
to string coercion in Python), which is what `app_id in cache` evaluates
key-by-key when `app_id` is an `int` and the cache keys are JSON strings. -/
def pyIntEqStr (_n : Nat) (_s : String) : Bool := false

/-- Python `app_id in cache` for an `int` app id against the string-keyed
cache dictionary. -/
def intKeyMem (appId : Nat) (cache : Cache) : Bool :=
  (List.any cache (fun kv => pyIntEqStr appId kv.1))

/-- Python `cache.get(str(app_id), \x7b\x7d)` from
`fetch_game_specific_options`. -/
def cacheBlob (appId : Nat) (cache : Cache) : Json :=
  (List.lookup (toString appId) cache).getD (Json.obj [])

/-- Line 6 of `game_specific.py`:
`title = cache.get(str(app_id), \x7b\x7d).get('title', 'Unknown Game Title')`.
Returns `none` when the Python expression would raise (`.get` on a non-dict
blob, or `.lower()` later on a non-string title). -/
def derivedTitle (appId : Nat) (cache : Cache) : Option String :=
  match List.lookup (toString appId) cache with
  | none => some "Unknown Game Title"
  | some (Json.obj entries) =>
    match List.lookup "title" entries with
    | none => some "Unknown Game Title"
    | some (Json.str t) => some t
    | some _ => none
  | some _ => none

/-- Static Source-engine bundle of `game_specific.py` (5 records). -/
def sourceEngineOptions : List RawOption :=
  [⟨"-novid", "Skip intro videos when starting the game", "Common Source Engine"⟩,
   ⟨"-console", "Enable developer console", "Common Source Engine"⟩,
   ⟨"-windowed", "Run the game in windowed mode", "Common Source Engine"⟩,
   ⟨"-fullscreen", "Run the game in fullscreen mode", "Common Source Engine"⟩,
   ⟨"-noborder", "Run the game in borderless windowed mode", "Common Source Engine"⟩]

/-- Static Unity bundle of `game_specific.py` (4 records). -/
def unityEngineOptions : List RawOption :=
  [⟨"-screen-width", "Set screen width (e.g., -screen-width 1920)", "Common Unity Engine"⟩,
   ⟨"-screen-height", "Set screen height (e.g., -screen-height 1080)", "Common Unity Engine"⟩,
   ⟨"-popupwindow", "Run in borderless windowed mode", "Common Unity Engine"⟩,
   ⟨"-window-mode", "Set window mode (values: exclusive, windowed, borderless)",
    "Common Unity Engine"⟩]

/-- Static Unreal bundle of `game_specific.py` (5 records). -/
def unrealEngineOptions : List RawOption :=
  [⟨"-windowed", "Run the game in windowed mode", "Common Unreal Engine"⟩,
   ⟨"-fullscreen", "Run the game in fullscreen mode", "Common Unreal Engine"⟩,
   ⟨"-presets=", "Specify graphics preset (e.g., -presets=high)", "Common Unreal Engine"⟩,
   ⟨"-dx12", "Force DirectX 12 rendering", "Common Unreal Engine"⟩,
   ⟨"-dx11", "Force DirectX 11 rendering", "Common Unreal Engine"⟩]

/-- General bundle of `game_specific.py`, always appended (3 records). -/
def generalOptions : List RawOption :=
  [⟨"-fps_max", "Limit maximum FPS (e.g., -fps_max 144)", "Common Launch Option"⟩,
   ⟨"-nojoy", "Disable joystick/controller support", "Common Launch Option"⟩,
   ⟨"-nosplash", "Skip splash/intro screens", "Common Launch Option"⟩]

/-- Franchise substrings checked against the lowercased title in
`game_specific.py` line 94. -/
def franchiseSubstrings : List String :=
  ["counter-strike", "half-life", "portal", "team fortress", "left 4 dead", "garry", "dota"]

/-- Condition of line 94: some franchise substring occurs in the lowered
title. -/
def sourceCond (lowerTitle : String) : Bool :=
  franchiseSubstrings.any (fun g => pyIn g lowerTitle)

/-- Condition of line 98:
`'unity' in lower_title or app_id in cache and 'unity' in str(cache.get(str(app_id), \x7b\x7d)).lower()`. -/
def unityCond (lowerTitle : String) (appId : Nat) (cache : Cache) : Bool :=
  pyIn "unity" lowerTitle ||
    (intKeyMem appId cache && pyIn "unity" (pyLower (pyRepr (cacheBlob appId cache))))

/-- Condition of line 102, same shape with `'unreal'`. -/
def unrealCond (lowerTitle : String) (appId : Nat) (cache : Cache) : Bool :=
  pyIn "unreal" lowerTitle ||
    (intKeyMem appId cache && pyIn "unreal" (pyLower (pyRepr (cacheBlob appId cache))))

/-- Embedding of `fetch_game_specific_options(app_id, title, cache)` from
`scrapers/game_specific.py`.  The `title` argument is reassigned from the
cache on line 6 before any use, so the parameter is dead; `none` models a
raised exception.  The test-statistics block is guarded by `test_mode`
(default `False`, never passed by `core/scraper.py`) and does not affect the
returned list. -/
def fetchGameSpecificOptions (appId : Nat) (title : String) (cache : Cache) :
    Option (List RawOption) :=
  match derivedTitle appId cache with
  | none => none
  | some t =>
    let lowerTitle := pyLower t
    let engineBundle :=
      if sourceCond lowerTitle then sourceEngineOptions
      else if unityCond lowerTitle appId cache then unityEngineOptions
      else if unrealCond lowerTitle appId cache then unrealEngineOptions
      else []
    some (engineBundle ++ generalOptions)

/-- Normalised dedup key of `core/scraper.py` line 173:
`option['command'].strip().lower()`. -/
def normCommand (o : RawOption) : String := pyLower (pyStrip o.command)

/-- Loop body of `core/scraper.py` lines 170-176 with the `seen_commands` set
made explicit. -/
def dedupeGo (seen : List String) : List RawOption → List RawOption
  | [] => []
  | o :: rest =>
    if normCommand o ∈ seen then dedupeGo seen rest
    else o :: dedupeGo (normCommand o :: seen) rest

/-- Embedding of the merge of `core/scraper.py` lines 169-176: one pass over
the concatenated extractor outputs, keeping the first record per normalised
command. -/
def dedupeOptions (l : List RawOption) : List RawOption := dedupeGo [] l

/-- Specification-side merge, following the spec's words for claim C1: keep
the first record of each normalised command key and discard every later
record with an equal key.  Defined independently of the implementation to be
compared against it. -/
def mergeSpecKeepFirst : List RawOption → List RawOption
  | [] => []
  | o :: rest =>
    o :: mergeSpecKeepFirst (rest.filter (fun x => normCommand x ≠ normCommand o))
termination_by l => l.length
decreasing_by
  calc (rest.filter (fun x => normCommand x ≠ normCommand o)).length
      ≤ rest.length := List.length_filter_le _ _
    _ < (o :: rest).length := by simp

theorem filter_filter_normKey (rest : List RawOption) (seen : List String) (k : String) :
    (rest.filter (fun x => normCommand x ∉ seen)).filter (fun x => normCommand x ≠ k) =
      rest.filter (fun x => normCommand x ∉ (k :: seen)) := by
  induction rest with
  | nil => rfl
  | cons a t ih =>
    by_cases h1 : normCommand a ∈ seen
    · by_cases h2 : normCommand a = k
      · rw [h2] at h1
        simp [List.filter_cons, h1, h2, ih]
      · simp [List.filter_cons, h1, h2, ih]
    · by_cases h2 : normCommand a = k
      · rw [h2] at h1
        simp [List.filter_cons, h1, h2, ih]
      · simp [List.filter_cons, h1, h2, ih]

/-- The implementation's seen-set loop agrees with the specification-side
keep-first merge, relative to the commands already seen. -/
theorem dedupeGo_eq_keepFirst (l : List RawOption) :
    ∀ seen : List String,
      dedupeGo seen l = mergeSpecKeepFirst (l.filter (fun o => normCommand o ∉ seen)) := by
  induction l with
  | nil => intro seen; simp [dedupeGo, mergeSpecKeepFirst]
  | cons o rest ih =>
    intro seen
    by_cases h : normCommand o ∈ seen
    · rw [dedupeGo, if_pos h, List.filter_cons]
      have e : (decide (normCommand o ∉ seen)) = false := by simp [h]
      rw [e]
      simpa using ih seen
    · rw [dedupeGo, if_neg h, List.filter_cons]
      have e : (decide (normCommand o ∉ seen)) = true := by simp [h]
      rw [e]
      simp only [if_pos trivial, if_true]
      rw [mergeSpecKeepFirst, ih (normCommand o :: seen), filter_filter_normKey]

theorem dedupeGo_sublist (l : List RawOption) :
    ∀ seen : List String, List.Sublist (dedupeGo seen l) l := by
  induction l with
  | nil => intro seen; simp [dedupeGo]
  | cons o rest ih =>
    intro seen
    rw [dedupeGo]
    by_cases h : normCommand o ∈ seen
    · simp only [if_pos h]
      exact (ih seen).cons o
    · simp only [if_neg h]
      exact (ih (normCommand o :: seen)).cons₂ o

theorem mem_dedupeGo_not_seen (l : List RawOption) :
    ∀ seen : List String, ∀ o ∈ dedupeGo seen l, normCommand o ∉ seen := by
  induction l with
  | nil => intro seen o ho; simp [dedupeGo] at ho
  | cons a rest ih =>
    intro seen o ho
    rw [dedupeGo] at ho
    by_cases h : normCommand a ∈ seen
    · rw [if_pos h] at ho
      exact ih seen o ho
    · rw [if_neg h] at ho
      rcases List.mem_cons.mp ho with h1 | h2
      · subst h1; exact h
      · have := ih (normCommand a :: seen) o h2
        exact fun hc => this (List.mem_cons_of_mem _ hc)

theorem dedupeGo_pairwise (l : List RawOption) :
    ∀ seen : List String,
      (dedupeGo seen l).Pairwise (fun a b => normCommand a ≠ normCommand b) := by
  induction l with
  | nil => intro seen; simp [dedupeGo]
  | cons a rest ih =>
    intro seen
    rw [dedupeGo]
    by_cases h : normCommand a ∈ seen
    · rw [if_pos h]; exact ih seen
    · rw [if_neg h]
      refine List.Pairwise.cons ?_ (ih (normCommand a :: seen))
      intro b hb
      have := mem_dedupeGo_not_seen rest (normCommand a :: seen) b hb
      intro hab
      exact this (by rw [← hab]; exact List.mem_cons_self _ _)

/-- C1: the merge of `core/scraper.py` lines 169-176, applied to the
concatenation of the static, wiki and community extractor outputs in priority
order, keeps exactly the first record per trim-and-lowercase command key,
in input order and unmodified (it is a sublist of its input), and its output
is pairwise distinct under that normalised comparison. -/
theorem c1_merge_keeps_first_occurrence (statics wiki community : List RawOption) :
    dedupeOptions (statics ++ wiki ++ community) =
      mergeSpecKeepFirst (statics ++ wiki ++ community) ∧
    List.Sublist (dedupeOptions (statics ++ wiki ++ community))
      (statics ++ wiki ++ community) ∧
    (dedupeOptions (statics ++ wiki ++ community)).Pairwise
      (fun a b => normCommand a ≠ normCommand b) := by
  refine ⟨?_, dedupeGo_sublist _ [], dedupeGo_pairwise _ []⟩
  rw [dedupeOptions, dedupeGo_eq_keepFirst]
  congr 1
  simp

theorem intKeyMem_false (appId : Nat) (cache : Cache) : intKeyMem appId cache = false := by
  unfold intKeyMem pyIntEqStr
  induction cache with
  | nil => rfl
  | cons kv rest ih => simpa using ih

/-- C10: the static knowledge-base extractor's result does not depend on the
`title` argument — the parameter is reassigned from
`cache.get(str(app_id), ...).get('title', 'Unknown Game Title')` before any
use, so two calls differing only in the passed title return equal lists. -/
theorem c10_static_extractor_title_independent (appId : Nat) (t1 t2 : String)
    (cache : Cache) :
    fetchGameSpecificOptions appId t1 cache = fetchGameSpecificOptions appId t2 cache := rfl

/-- C2 (amended): the static extractor classifies by the cache-derived title,
not the passed one.  Whenever the derivation succeeds, the result is one
engine bundle (or none) followed by the general bundle; the Source bundle is
chosen exactly when the lowered derived title contains a franchise substring,
the Unity bundle exactly when the Source test fails and the Unity condition
holds, and the Unreal bundle exactly when both earlier tests fail and the
Unreal condition holds — mutually exclusive, ordered, first match wins.  The
`app_id in cache` guard inside the Unity/Unreal conditions is always false
because the integer app id never equals a string cache key. -/
theorem c2_engine_bundle_selection_amended (appId : Nat) (title : String)
    (cache : Cache) (dt : String) (hdt : derivedTitle appId cache = some dt) :
    ∃ bundle,
      fetchGameSpecificOptions appId title cache = some (bundle ++ generalOptions) ∧
      intKeyMem appId cache = false ∧
      (bundle = sourceEngineOptions ∨ bundle = unityEngineOptions ∨
        bundle = unrealEngineOptions ∨ bundle = []) ∧
      (bundle = sourceEngineOptions ↔ sourceCond (pyLower dt) = true) ∧
      (bundle = unityEngineOptions ↔
        sourceCond (pyLower dt) = false ∧ unityCond (pyLower dt) appId cache = true) ∧
      (bundle = unrealEngineOptions ↔
        sourceCond (pyLower dt) = false ∧ unityCond (pyLower dt) appId cache = false ∧
          unrealCond (pyLower dt) appId cache = true) := by
  unfold fetchGameSpecificOptions
  rw [hdt]
  by_cases hs : sourceCond (pyLower dt) = true
  · refine ⟨sourceEngineOptions, ?_, intKeyMem_false _ _, Or.inl rfl, ?_, ?_, ?_⟩
    · simp [hs]
    · simp [hs]
    · constructor
      · intro h; exact absurd h (by decide)
      · rintro ⟨h1, -⟩; rw [hs] at h1; cases h1
    · constructor
      · intro h; exact absurd h (by decide)
      · rintro ⟨h1, -⟩; rw [hs] at h1; cases h1
  · have hs' : sourceCond (pyLower dt) = false := by
      cases h : sourceCond (pyLower dt)
      · rfl
      · exact absurd h hs
    by_cases hu : unityCond (pyLower dt) appId cache = true
    · refine ⟨unityEngineOptions, ?_, intKeyMem_false _ _, Or.inr (Or.inl rfl), ?_, ?_, ?_⟩
      · simp [hs', hu]
      · constructor
        · intro h; exact absurd h (by decide)
        · intro h; exact absurd h hs
      · simp [hs', hu]
      · constructor
        · intro h; exact absurd h (by decide)
        · rintro ⟨-, h2, -⟩; rw [hu] at h2; cases h2
    · have hu' : unityCond (pyLower dt) appId cache = false := by
        cases h : unityCond (pyLower dt) appId cache
        · rfl
        · exact absurd h hu
      by_cases hr : unrealCond (pyLower dt) appId cache = true
      · refine ⟨unrealEngineOptions, ?_, intKeyMem_false _ _,
          Or.inr (Or.inr (Or.inl rfl)), ?_, ?_, ?_⟩
        · simp [hs', hu', hr]
        · constructor
          · intro h; exact absurd h (by decide)
          · intro h; exact absurd h hs
        · constructor
          · intro h; exact absurd h (by decide)
          · rintro ⟨-, h2⟩; rw [hu'] at h2; cases h2
        · simp [hs', hu', hr]
      · have hr' : unrealCond (pyLower dt) appId cache = false := by
          cases h : unrealCond (pyLower dt) appId cache
          · rfl
          · exact absurd h hr
        refine ⟨[], ?_, intKeyMem_false _ _, Or.inr (Or.inr (Or.inr rfl)), ?_, ?_, ?_⟩
        · simp [hs', hu', hr']
        · constructor
          · intro h; exact absurd h.symm (by decide)
          · intro h; exact absurd h hs
        · constructor
          · intro h; exact absurd h.symm (by decide)
          · rintro ⟨-, h2⟩; rw [hu'] at h2; cases h2
        · constructor
          · intro h; exact absurd h.symm (by decide)
          · rintro ⟨-, -, h3⟩; rw [hr'] at h3; cases h3

/-- Witness for the amended C2 at a concrete input: app id 5 with cached
title `half-life` yields the Source bundle plus the general bundle, whatever
title is passed. -/
theorem c2_engine_bundle_selection_amended_witness :
    ∃ bundle,
      fetchGameSpecificOptions 5 "Anything"
          [("5", Json.obj [("title", Json.str "half-life")])] =
        some (bundle ++ generalOptions) ∧
      intKeyMem 5 [("5", Json.obj [("title", Json.str "half-life")])] = false ∧
      (bundle = sourceEngineOptions ∨ bundle = unityEngineOptions ∨
        bundle = unrealEngineOptions ∨ bundle = []) ∧
      (bundle = sourceEngineOptions ↔ sourceCond (pyLower "half-life") = true) ∧
      (bundle = unityEngineOptions ↔
        sourceCond (pyLower "half-life") = false ∧
          unityCond (pyLower "half-life") 5
            [("5", Json.obj [("title", Json.str "half-life")])] = true) ∧
      (bundle = unrealEngineOptions ↔
        sourceCond (pyLower "half-life") = false ∧
          unityCond (pyLower "half-life") 5
            [("5", Json.obj [("title", Json.str "half-life")])] = false ∧
          unrealCond (pyLower "half-life") 5
            [("5", Json.obj [("title", Json.str "half-life")])] = true) :=
  c2_engine_bundle_selection_amended 5 "Anything"
    [("5", Json.obj [("title", Json.str "half-life")])] "half-life" (by decide)

/-- Counterexample to C2 as stated: the passed title `Portal` contains the
franchise substring `portal`, yet with an empty cache the extractor returns
only the general bundle — no Source-engine record is selected, because
classification uses the cache-derived title `Unknown Game Title`. -/
theorem c2_engine_bundle_selection_counterexample :
    pyIn "portal" (pyLower "Portal") = true ∧
    fetchGameSpecificOptions 730 "Portal" [] = some generalOptions ∧
    ∀ o ∈ generalOptions, o.source ≠ "Common Source Engine" := by
  refine ⟨by decide, by decide, by decide⟩

/-- Word character of the ASCII fragment of Python's regex `\w`:
letters, digits, underscore. -/
def isWordChar (c : Char) : Bool := c.isAlphanum || c == '_'

/-- Character class `[\w\-]` used by the command-token patterns. -/
def isTokenChar (c : Char) : Bool := isWordChar c || c == '-'

/-- Attempt of the token part of
`(?:^|\s)(-\x7b1,2\x7d[\w\-]+|\+[\w\-]+|\/[\w\-]+)(?:\s|$)` at the current
position: a `-`, `+` or `/` followed by a maximal non-empty run of
`[\w\-]` characters, then a whitespace boundary (consumed) or end of input.
Shrinking the greedy run can never satisfy the boundary (the next character
would be a token character), so no further backtracking exists. -/
def tryTokenAt (l : List Char) : Option (List Char × List Char) :=
  match l with
  | [] => none
  | c :: rest =>
    if c = '-' || c = '+' || c = '/' then
      let run := rest.takeWhile isTokenChar
      if run.isEmpty then none
      else
        match rest.drop run.length with
        | [] => some (c :: run, [])
        | w :: after => if isPySpace w then some (c :: run, after) else none
    else none

/-- Fuelled left-to-right non-overlapping scan of `re.finditer` for the
command-token pattern; the Boolean records whether the zero-width `^`
alternative is still available (position 0 only).  The fuel bounds consumed
characters, so `l.length` fuel suffices. -/
def findTokensGo : Nat → Bool → List Char → List (List Char)
  | _, _, [] => []
  | 0, _, _ => []
  | fuel + 1, atStart, c :: rest =>
    match (if atStart then tryTokenAt (c :: rest) else none) with
    | some (tok, after) => tok :: findTokensGo fuel false after
    | none =>
      if isPySpace c then
        match tryTokenAt rest with
        | some (tok, after) => tok :: findTokensGo fuel false after
        | none => findTokensGo fuel false rest
      else findTokensGo fuel false rest

/-- All group-1 captures of
`re.finditer(r'(?:^|\s)(-\x7b1,2\x7d[\w\-]+|\+[\w\-]+|\/[\w\-]+)(?:\s|$)', text)`
in order (`pcgamingwiki.py` line 148, `steamcommunity.py` lines 64 and 91). -/
def findCmdTokens (text : String) : List String :=
  (findTokensGo text.toList.length true text.toList).map (fun tok => ⟨tok⟩)

/-- Leftmost match of `re.search(r'(-\x7b1,2\x7d\w+)', text)`
(`pcgamingwiki.py` line 108): one or two dashes followed by at least one word
character, scanning left to right. -/
def searchDashWord : List Char → Option (List Char)
  | [] => none
  | c :: rest =>
    if c = '-' then
      match rest with
      | '-' :: rest2 =>
        let run := rest2.takeWhile isWordChar
        if run.isEmpty then searchDashWord rest else some ('-' :: '-' :: run)
      | _ =>
        let run := rest.takeWhile isWordChar
        if run.isEmpty then searchDashWord rest else some ('-' :: run)
    else searchDashWord rest

/-- A wiki table as navigated by strategy 1: its class list and the `td` cell
texts of each `tr` row (header row included; the extractor drops it). -/
structure WikiTable where
  classes : List String
  rowCells : List (List String)
deriving Repr, DecidableEq

/-- The parent element of a section anchor, with the results of the
`find_next` navigations the extractor performs from it. -/
structure WikiParent where
  name : String
  nextTable : Option WikiTable
  nextList : Option (List String)
deriving Repr, DecidableEq

/-- An element found by id on the page (the section anchor). -/
structure WikiSection where
  parent : Option WikiParent
deriving Repr, DecidableEq

/-- One `code`/`pre` element: its own text and its parent's text. -/
structure WikiCodeBlock where
  text : String
  parentText : Option String
deriving Repr, DecidableEq

/-- Parsed wiki page abstraction: id-indexed section anchors (first match
wins, as `soup.find(id=...)`), all `code`/`pre` blocks in document order, and
the raw `get_text()` of every `p`/`li` tag. -/
structure WikiPage where
  sections : List (String × WikiSection)
  codeBlocks : List WikiCodeBlock
  textTags : List String
deriving Repr, DecidableEq

/-- Section-id candidates of `pcgamingwiki.py` lines 37-46, in order. -/
def potentialSectionIds : List String :=
  ["Command_line_arguments", "Launch_options", "Launch_commands", "Parameters",
   "Launch_parameters", "Command-line_arguments", "Command_line_parameters",
   "Steam_launch_options"]

/-- Strategy 1 (`pcgamingwiki.py` lines 50-78): for every candidate section
id, the next table after the heading parent, if classed `wikitable`, yields
one record per data row with a non-empty first cell. -/
def wikiMethod1 (page : WikiPage) : List RawOption :=
  potentialSectionIds.flatMap (fun sid =>
    match List.lookup sid page.sections with
    | none => []
    | some sec =>
      match sec.parent with
      | none => []
      | some par =>
        if pyStartsWith par.name "h" then
          match par.nextTable with
          | none => []
          | some table =>
            if List.contains table.classes "wikitable" then
              (table.rowCells.drop 1).flatMap (fun cells =>
                match cells with
                | c0 :: c1 :: _ =>
                  if pyStrip c0 ≠ "" then [⟨pyStrip c0, pyStrip c1, "PCGamingWiki"⟩]
                  else []
                | _ => [])
            else []
        else [])

/-- Command/description split of one list item (`pcgamingwiki.py` lines
93-114): first `:`, else first ` - `, else first ` – `, else a dash-word
search, else the whole text with a placeholder description. -/
def wikiSplitItem (text : String) : String × String :=
  if pyIn ":" text then
    match splitOnceL [':'] text.toList with
    | some (a, b) => (pyStrip ⟨a⟩, pyStrip ⟨b⟩)
    | none => (text, "No description available")
  else if pyIn " - " text then
    match splitOnceL " - ".toList text.toList with
    | some (a, b) => (pyStrip ⟨a⟩, pyStrip ⟨b⟩)
    | none => (text, "No description available")
  else if pyIn " – " text then
    match splitOnceL " – ".toList text.toList with
    | some (a, b) => (pyStrip ⟨a⟩, pyStrip ⟨b⟩)
    | none => (text, "No description available")
  else
    match searchDashWord text.toList with
    | some cmd => (⟨cmd⟩, pyStrip ⟨replaceAllL cmd [] text.toList⟩)
    | none => (text, "No description available")

/-- Strategy 2 (`pcgamingwiki.py` lines 80-121): the next list after each
candidate section's parent, one record per item whose extracted command is
non-empty and not whitespace-only. -/
def wikiMethod2 (page : WikiPage) : List RawOption :=
  potentialSectionIds.flatMap (fun sid =>
    match List.lookup sid page.sections with
    | none => []
    | some sec =>
      match sec.parent with
      | none => []
      | some par =>
        match par.nextList with
        | none => []
        | some items =>
          items.flatMap (fun raw =>
            if (wikiSplitItem (pyStrip raw)).1 ≠ "" ∧
                pyStrip (wikiSplitItem (pyStrip raw)).1 ≠ "" then
              [⟨(wikiSplitItem (pyStrip raw)).1, (wikiSplitItem (pyStrip raw)).2,
                "PCGamingWiki"⟩]
            else []))

/-- Parent text of a code block (`block.parent.get_text(strip=True)` with an
empty default). -/
def wikiParentText (block : WikiCodeBlock) : String :=
  match block.parentText with
  | some p => pyStrip p
  | none => ""

/-- Description derivation of strategy 3: the parent text with the first
occurrence of the command removed, when the parent text is longer. -/
def wikiMethod3Desc (block : WikiCodeBlock) : String :=
  if (pyStrip block.text).toList.length < (wikiParentText block).toList.length then
    pyStrip ⟨replaceFirstL (pyStrip block.text).toList [] (wikiParentText block).toList⟩
  else "No description available"

/-- Strategy 3 (`pcgamingwiki.py` lines 123-140): every `code`/`pre` block
whose stripped text starts with `-`, `/` or `+`; the description is the
parent text with the first occurrence of the command removed when the parent
text is longer. -/
def wikiMethod3 (page : WikiPage) : List RawOption :=
  page.codeBlocks.flatMap (fun block =>
    if pyStartsWith (pyStrip block.text) "-" || pyStartsWith (pyStrip block.text) "/" ||
        pyStartsWith (pyStrip block.text) "+" then
      [⟨pyStrip block.text, wikiMethod3Desc block, "PCGamingWiki"⟩]
    else [])

/-- Exact-command seen-set dedup of strategy 4 (`pcgamingwiki.py` lines
157-162). -/
def dedupeExactGo (seen : List String) : List RawOption → List RawOption
  | [] => []
  | o :: rest =>
    if o.command ∈ seen then dedupeExactGo seen rest
    else o :: dedupeExactGo (o.command :: seen) rest

/-- Strategy 4 (`pcgamingwiki.py` lines 142-162): regex scan of every
`p`/`li` text for command-like tokens, description the full containing text,
deduplicated by exact command string. -/
def wikiMethod4 (page : WikiPage) : List RawOption :=
  dedupeExactGo []
    (page.textTags.flatMap (fun text =>
      (findCmdTokens text).map (fun tok =>
        (⟨tok, text, "PCGamingWiki"⟩ : RawOption))))

/-- The four strategies applied to one fetched page exactly as the successive
`if not options:` guards of `pcgamingwiki.py` lines 48-162 chain them. -/
def extractWikiOptions (page : WikiPage) : List RawOption :=
  let o1 := wikiMethod1 page
  let o2 := if o1.isEmpty then o1 ++ wikiMethod2 page else o1
  let o3 := if o2.isEmpty then o2 ++ wikiMethod3 page else o2
  if o3.isEmpty then o3 ++ wikiMethod4 page else o3

/-- Result of one HTTP request to the wiki: a raised network/parse exception,
or a status code with the parsed page. -/
inductive WikiResult where
  | netError : WikiResult
  | http (status : Nat) (page : WikiPage) : WikiResult
deriving DecidableEq

/-- Embedding of `format_game_title_for_wiki` (`pcgamingwiki.py` lines 7-16)
minus the final `urllib.parse.quote`, which is injective and therefore
composed into the abstract web map. -/
def formatGameTitleForWiki (title : String) : String :=
  ⟨replaceAllL ['-'] ['_']
    (replaceAllL ['\''] []
      (replaceAllL ['&'] "and".toList
        (replaceAllL [':'] []
          (replaceAllL [' '] ['_'] title.toList))))⟩

/-- Python `game_title.split(':')[0]` of the 404 retry
(`pcgamingwiki.py` line 179). -/
def wikiAltTitle (title : String) : String :=
  ⟨title.toList.takeWhile (fun c => c ≠ ':')⟩

/-- Fuelled embedding of `fetch_pcgamingwiki_launch_options`
(`pcgamingwiki.py` lines 18-191) over an abstract web map from formatted
titles to responses.  Each 404 retry strictly shortens the title, so
`title.length + 1` fuel always suffices; the zero-fuel branch is
unreachable. -/
def fetchWikiFuel (web : String → WikiResult) : Nat → String → List RawOption
  | 0, _ => []
  | fuel + 1, title =>
    match web (formatGameTitleForWiki title) with
    | WikiResult.netError => []
    | WikiResult.http status page =>
      if status = 200 then extractWikiOptions page
      else if status = 404 then
        if pyIn ":" title then
          if wikiAltTitle title ≠ "" ∧ wikiAltTitle title ≠ title then
            fetchWikiFuel web fuel (wikiAltTitle title)
          else []
        else []
      else []

/-- Embedding of `fetch_pcgamingwiki_launch_options(game_title)`. -/
def fetchWiki (web : String → WikiResult) (title : String) : List RawOption :=
  fetchWikiFuel web (title.toList.length + 1) title

/-- Page transformation replacing every section's following list by nothing,
leaving headings, tables, code blocks and text tags untouched; used to state
that strategy 2 contributes nothing when strategy 1 succeeds. -/
def eraseParentList (par : WikiParent) : WikiParent := ⟨par.name, par.nextTable, none⟩

/-- Section-level lift of `eraseParentList`. -/
def eraseSectionListsSec (sec : WikiSection) : WikiSection :=
  ⟨sec.parent.map eraseParentList⟩

/-- Page-level lift of `eraseParentList`. -/
def eraseSectionLists (page : WikiPage) : WikiPage :=
  ⟨page.sections.map (fun p => (p.1, eraseSectionListsSec p.2)),
   page.codeBlocks, page.textTags⟩

theorem lookup_map_eraseSec (sections : List (String × WikiSection)) (sid : String) :
    List.lookup sid (sections.map (fun p => (p.1, eraseSectionListsSec p.2))) =
      (List.lookup sid sections).map eraseSectionListsSec := by
  induction sections with
  | nil => rfl
  | cons p rest ih =>
    by_cases h : sid = p.1
    · simp [List.lookup, h]
    · have hbeq : (sid == p.1) = false := by simpa using h
      simp [List.lookup, hbeq, ih]

theorem wikiMethod1_eraseSectionLists (page : WikiPage) :
    wikiMethod1 (eraseSectionLists page) = wikiMethod1 page := by
  unfold wikiMethod1
  congr 1
  funext sid
  have hsec : (eraseSectionLists page).sections =
      page.sections.map (fun p => (p.1, eraseSectionListsSec p.2)) := rfl
  rw [hsec, lookup_map_eraseSec]
  cases List.lookup sid page.sections with
  | none => rfl
  | some sec =>
    cases hp : sec.parent with
    | none => simp [eraseSectionListsSec, hp]
    | some par => simp [eraseSectionListsSec, eraseParentList, hp]

/-- Short-circuit form of the strategy chain: the extractor's successive
`if not options:` guards make the returned set the first non-empty strategy
output. -/
theorem extractWikiOptions_eq_chain (q : WikiPage) :
    extractWikiOptions q =
      if wikiMethod1 q = [] then
        if wikiMethod2 q = [] then
          if wikiMethod3 q = [] then wikiMethod4 q
          else wikiMethod3 q
        else wikiMethod2 q
      else wikiMethod1 q := by
  unfold extractWikiOptions
  by_cases h1 : wikiMethod1 q = []
  · by_cases h2 : wikiMethod2 q = []
    · by_cases h3 : wikiMethod3 q = [] <;>
        simp [h1, h2, h3, List.isEmpty_iff]
    · simp [h1, h2, List.isEmpty_iff]
  · simp [h1, List.isEmpty_iff]

/-- C5: the wiki extractor applies the four strategies in strict fallback
order — the returned set is the first non-empty of table, list, code-block
and free-text scan — and when the table strategy succeeds the result is
exactly its output and does not depend on the page's lists at all (erasing
every list after a section heading leaves the result unchanged). -/
theorem c5_wiki_strategy_fallback_order (page : WikiPage) :
    (extractWikiOptions page =
      if wikiMethod1 page = [] then
        if wikiMethod2 page = [] then
          if wikiMethod3 page = [] then wikiMethod4 page
          else wikiMethod3 page
        else wikiMethod2 page
      else wikiMethod1 page) ∧
    (wikiMethod1 page ≠ [] →
      extractWikiOptions page = wikiMethod1 page ∧
      extractWikiOptions (eraseSectionLists page) = extractWikiOptions page) := by
  have hchain := extractWikiOptions_eq_chain
  refine ⟨hchain page, fun h1 => ⟨?_, ?_⟩⟩
  · rw [hchain page, if_neg (by simpa using h1)]
  · have h1e : wikiMethod1 (eraseSectionLists page) ≠ [] := by
      rw [wikiMethod1_eraseSectionLists]; exact h1
    rw [hchain (eraseSectionLists page), hchain page,
      if_neg (by simpa using h1e), if_neg (by simpa using h1),
      wikiMethod1_eraseSectionLists]

/-- Fixture page for the C5 witness: a matching section with both a
`wikitable` and a following list. -/
def pageC5 : WikiPage :=
  ⟨[("Launch_options",
      ⟨some ⟨"h2",
        some ⟨["wikitable"], [["Command", "Description"], ["-novid", "Skips intro"]]⟩,
        some ["-console: Enables console"]⟩⟩)],
   [], []⟩

/-- Witness for C5 on `pageC5`: the table strategy succeeds, the list
strategy would have produced a different non-empty output, and the extractor
returns exactly the table output, unchanged when the lists are erased. -/
theorem c5_wiki_strategy_fallback_order_witness :
    wikiMethod1 pageC5 = [⟨"-novid", "Skips intro", "PCGamingWiki"⟩] ∧
    wikiMethod2 pageC5 = [⟨"-console", "Enables console", "PCGamingWiki"⟩] ∧
    extractWikiOptions pageC5 = wikiMethod1 pageC5 ∧
    extractWikiOptions (eraseSectionLists pageC5) = extractWikiOptions pageC5 :=
  ⟨by decide, by decide,
   ((c5_wiki_strategy_fallback_order pageC5).2 (by decide)).1,
   ((c5_wiki_strategy_fallback_order pageC5).2 (by decide)).2⟩

theorem containsSub_single_iff (c : Char) (l : List Char) :
    containsSub [c] l = true ↔ c ∈ l := by
  induction l with
  | nil => simp [containsSub, List.isEmpty]
  | cons a rest ih =>
    rw [containsSub, List.isPrefixOf_cons₂]
    simp only [List.isPrefixOf_nil_left, Bool.and_true, Bool.or_eq_true, beq_iff_eq, ih,
      List.mem_cons]

theorem takeWhile_ne_length_lt (c : Char) (l : List Char) (hc : c ∈ l) :
    (l.takeWhile (fun x => x ≠ c)).length < l.length := by
  induction l with
  | nil => simp at hc
  | cons a rest ih =>
    by_cases ha : a = c
    · subst ha
      rw [List.takeWhile_cons_of_neg (by simp)]
      simp
    · rw [List.takeWhile_cons_of_pos (by simpa using ha)]
      have hc' : c ∈ rest := by
        rcases List.mem_cons.mp hc with h | h
        · exact absurd h.symm ha
        · exact h
      simpa using ih hc'

theorem no_colon_in_altTitle (title : String) :
    containsSub [':'] (wikiAltTitle title).toList = false := by
  have hmem : ':' ∉ (wikiAltTitle title).toList := by
    intro hmem
    have := List.mem_takeWhile_imp (p := fun x => x ≠ ':') hmem
    simp at this
  cases h : containsSub [':'] (wikiAltTitle title).toList
  · rfl
  · exact absurd ((containsSub_single_iff ':' _).mp h) hmem

/-- The single non-retrying wiki lookup: extract the page on a 200 response
and return nothing otherwise.  This is what the one recursive retry of the
404 handler amounts to, because the truncated title contains no colon. -/
def fetchWikiSingle (web : String → WikiResult) (title : String) : List RawOption :=
  match web (formatGameTitleForWiki title) with
  | WikiResult.netError => []
  | WikiResult.http status page =>
    if status = 200 then extractWikiOptions page else []

theorem fetchWikiFuel_single (web : String → WikiResult) (fuel : Nat) (title : String)
    (hfuel : title.toList.length < fuel)
    (hnc : containsSub [':'] title.toList = false) :
    fetchWikiFuel web fuel title = fetchWikiSingle web title := by
  cases fuel with
  | zero => omega
  | succ n =>
    rw [fetchWikiFuel, fetchWikiSingle]
    cases web (formatGameTitleForWiki title) with
    | netError => rfl
    | http status page =>
      by_cases hst : status = 200
      · simp [hst]
      · by_cases h404 : status = 404
        · have hpy : pyIn ":" title = false := hnc
          simp [hst, h404, hpy]
        · simp [hst, h404]

/-- C6 (amended): on a 404 response the wiki extractor retries exactly once
with the title truncated at the first colon, provided that truncation is
non-empty, and returns that single retry's result (page extraction on 200,
empty otherwise, with no further retry); a 404 with no colon or an empty
truncation yields the empty list, and any other non-200 status yields the
empty list. -/
theorem c6_wiki_404_retry_amended (web : String → WikiResult) (title : String) :
    (∀ page, web (formatGameTitleForWiki title) = WikiResult.http 404 page →
      fetchWiki web title =
        if pyIn ":" title = true ∧ wikiAltTitle title ≠ "" then
          fetchWikiSingle web (wikiAltTitle title)
        else []) ∧
    (∀ status page, web (formatGameTitleForWiki title) = WikiResult.http status page →
      status ≠ 200 → status ≠ 404 → fetchWiki web title = []) := by
  constructor
  · intro page hweb
    simp only [fetchWiki, fetchWikiFuel, hweb]
    rw [if_pos trivial]
    by_cases hcolon : pyIn ":" title = true
    · rw [if_pos hcolon]
      by_cases halt : wikiAltTitle title = ""
      · simp [halt]
      · have hmem : ':' ∈ title.toList := (containsSub_single_iff ':' title.toList).mp hcolon
        have htlt : (wikiAltTitle title).toList.length < title.toList.length := by
          have he : (wikiAltTitle title).toList = title.toList.takeWhile (fun x => x ≠ ':') :=
            rfl
          rw [he]
          exact takeWhile_ne_length_lt ':' title.toList hmem
        have hne : wikiAltTitle title ≠ title := by
          intro he
          rw [he] at htlt
          omega
        have hstep : fetchWikiFuel web title.toList.length (wikiAltTitle title) =
            fetchWikiSingle web (wikiAltTitle title) :=
          fetchWikiFuel_single web _ _ htlt (no_colon_in_altTitle title)
        rw [if_pos (show wikiAltTitle title ≠ "" ∧ wikiAltTitle title ≠ title from
              ⟨halt, hne⟩),
          if_pos (show pyIn ":" title = true ∧ wikiAltTitle title ≠ "" from ⟨hcolon, halt⟩)]
        exact hstep
    · have hcolonf : pyIn ":" title = false := by
        cases h : pyIn ":" title
        · rfl
        · exact absurd h hcolon
      simp [hcolonf]
  · intro status page hweb h200 h404
    simp only [fetchWiki, fetchWikiFuel, hweb]
    simp [h200, h404]

/-- An empty wiki page (no sections, code blocks or text). -/
def emptyWikiPage : WikiPage := ⟨[], [], []⟩

/-- Fixture page whose code block yields one option via strategy 3. -/
def pageZoom : WikiPage := ⟨[], [⟨"-zoom", none⟩], []⟩

/-- Web map for the C6 witness: only the page `Foo` exists. -/
def webC6w : String → WikiResult := fun s =>
  if s = "Foo" then WikiResult.http 200 pageZoom else WikiResult.http 404 emptyWikiPage

/-- Witness for the amended C6: requesting `Foo: Bar` when only `Foo` exists
retries once with `Foo` and returns `Foo`'s options. -/
theorem c6_wiki_404_retry_amended_witness :
    fetchWiki webC6w "Foo: Bar" =
      (if pyIn ":" "Foo: Bar" = true ∧ wikiAltTitle "Foo: Bar" ≠ "" then
        fetchWikiSingle webC6w (wikiAltTitle "Foo: Bar")
      else []) ∧
    fetchWikiSingle webC6w (wikiAltTitle "Foo: Bar") =
      [⟨"-zoom", "No description available", "PCGamingWiki"⟩] :=
  ⟨(c6_wiki_404_retry_amended webC6w "Foo: Bar").1 emptyWikiPage (by decide), by decide⟩

/-- Web map for the C6 counterexample: only the empty-title page exists. -/
def webC6x : String → WikiResult := fun s =>
  if s = "" then WikiResult.http 200 pageZoom else WikiResult.http 404 emptyWikiPage

/-- Counterexample to C6 as stated: the title `:Bar` contains a colon and the
fetch returns 404, yet the extractor does not retry (the truncation is empty
and `if alt_title` rejects it) and returns the empty list, while the retry
with the truncated title would have returned an option. -/
theorem c6_wiki_404_retry_counterexample :
    pyIn ":" ":Bar" = true ∧
    fetchWiki webC6x ":Bar" = [] ∧
    fetchWiki webC6x (wikiAltTitle ":Bar") =
      [⟨"-zoom", "No description available", "PCGamingWiki"⟩] :=
  ⟨by decide, by decide, by decide⟩

/-- One guide entry of the community guide listing page
(`div.guide_item`): the title element's text and the link's href, when
present. -/
structure GuideRef where
  titleText : Option String
  href : Option String
deriving DecidableEq, Repr

/-- One `code`/`pre` block of a guide body with the nearest preceding and
following paragraph texts.  The `parent_text` computed on
`steamcommunity.py` line 68 is never used afterwards and is omitted. -/
structure GuideCodeBlock where
  text : String
  prevP : Option String
  nextP : Option String
deriving DecidableEq, Repr

/-- A fetched guide body: its code blocks and its `p`/`li` texts. -/
structure GuideContent where
  codeBlocks : List GuideCodeBlock
  paragraphs : List String
deriving DecidableEq, Repr

/-- Result of fetching the guide listing page. -/
inductive ListingResult where
  | netError : ListingResult
  | http (status : Nat) (guides : List GuideRef) : ListingResult
deriving DecidableEq

/-- Keyword set of `steamcommunity.py` line 30. -/
def guideKeywords : List String :=
  ["launch", "command", "option", "parameter", "argument", "fps", "performance"]

/-- Relevant-guide filter of `steamcommunity.py` lines 25-36: guides with a
title containing a keyword (checked on the lowercased title) and a link;
records keep the original-case title and the href. -/
def relevantGuides (guides : List GuideRef) : List (String × String) :=
  guides.flatMap (fun g =>
    match g.titleText with
    | none => []
    | some t =>
      if guideKeywords.any (fun k => pyIn k (pyLower t)) then
        match g.href with
        | none => []
        | some u => [(t, u)]
      else [])

/-- Code-block extraction for one guide (`steamcommunity.py` lines 57-83):
blocks containing `-`, `+` or `/` yield one record per regex token, described
by the preceding paragraph, else the following one, else a generic string,
truncated to 200 characters. -/
def guideBlockDesc (title : String) (block : GuideCodeBlock) : String :=
  match block.prevP with
  | some p => pyStrip p
  | none =>
    match block.nextP with
    | some p2 => pyStrip p2
    | none => "Found in guide: " ++ title

/-- Token extraction per code block for `guideCodeBlockOptions`. -/
def guideCodeBlockOptions (title : String) (content : GuideContent) : List RawOption :=
  content.codeBlocks.flatMap (fun block =>
    if pyIn "-" (pyStrip block.text) || pyIn "+" (pyStrip block.text) ||
        pyIn "/" (pyStrip block.text) then
      (findCmdTokens (pyStrip block.text)).map (fun cmd =>
        ⟨cmd, pyTruncate200 (guideBlockDesc title block), "Steam Community"⟩)
    else [])

/-- Paragraph fallback scan for one guide (`steamcommunity.py` lines 85-98):
`p`/`li` texts containing the word `launch` together with a `-`, `+` or `/`
symbol yield one record per regex token, described by the full text. -/
def guideParagraphOptions (content : GuideContent) : List RawOption :=
  content.paragraphs.flatMap (fun praw =>
    if pyIn "launch" (pyLower (pyStrip praw)) ∧
        (pyIn "-" (pyStrip praw) || pyIn "+" (pyStrip praw) || pyIn "/" (pyStrip praw)) then
      (findCmdTokens (pyStrip praw)).map (fun cmd =>
        ⟨cmd, pyTruncate200 (pyStrip praw), "Steam Community"⟩)
    else [])

/-- Guide-processing loop of `steamcommunity.py` lines 42-102 over the (at
most 3) relevant guides, with the shared `options` accumulator made explicit;
a failed guide fetch (non-200, missing body, or exception) contributes
nothing and processing continues. -/
def processGuides (guideFetch : String → Option GuideContent) :
    List RawOption → List (String × String) → List RawOption
  | acc, [] => acc
  | acc, (t, u) :: rest =>
    match guideFetch u with
    | none => processGuides guideFetch acc rest
    | some content =>
      processGuides guideFetch
        (if ¬((acc ++ guideCodeBlockOptions t content).any
            (fun o => o.source == "Steam Community")) then
          (acc ++ guideCodeBlockOptions t content) ++ guideParagraphOptions content
        else acc ++ guideCodeBlockOptions t content) rest

/-- Embedding of `fetch_steam_community_launch_options`
(`steamcommunity.py` lines 6-128) over an abstract listing result and guide
fetcher. -/
def fetchSteamCommunity (listing : ListingResult)
    (guideFetch : String → Option GuideContent) : List RawOption :=
  match listing with
  | ListingResult.netError => []
  | ListingResult.http status guides =>
    if status = 200 then
      if (processGuides guideFetch [] ((relevantGuides guides).take 3)).isEmpty ∧
          ¬(relevantGuides guides).isEmpty then
        ((relevantGuides guides).take 3).map (fun gu =>
          ⟨"See guide: " ++ gu.1,
           "This guide may contain launch options: " ++ gu.2, "Steam Community"⟩)
      else processGuides guideFetch [] ((relevantGuides guides).take 3)
    else []

/-- C7 (amended): the paragraph fallback for a guide whose code blocks yield
nothing runs only when the whole accumulated option list of this call is
still empty — it sees the options of earlier guides, not only this guide's.
With an empty accumulator the fallback results enter the output; with a
non-empty accumulator of community records the guide contributes nothing. -/
theorem c7_guide_fallback_amended (guideFetch : String → Option GuideContent)
    (t u : String) (content : GuideContent) (acc : List RawOption)
    (rest : List (String × String)) (hfetch : guideFetch u = some content)
    (hcode : guideCodeBlockOptions t content = []) :
    (acc = [] →
      processGuides guideFetch acc ((t, u) :: rest) =
        processGuides guideFetch (guideParagraphOptions content) rest) ∧
    (acc ≠ [] → (∀ o ∈ acc, o.source = "Steam Community") →
      processGuides guideFetch acc ((t, u) :: rest) =
        processGuides guideFetch acc rest) := by
  constructor
  · intro hacc
    subst hacc
    simp only [processGuides, hfetch, hcode, List.nil_append, List.append_nil]
    simp
  · intro hacc hall
    simp only [processGuides, hfetch, hcode, List.append_nil]
    have hany : (acc.any (fun o => o.source == "Steam Community")) = true := by
      rcases List.exists_mem_of_ne_nil acc hacc with ⟨o, ho⟩
      refine List.any_eq_true.mpr ⟨o, ho, ?_⟩
      simpa using hall o ho
    rw [if_neg (by simp [hany])]

/-- Guide body with one code-block option for the C7 fixtures. -/
def contentG1 : GuideContent := ⟨[⟨"-alpha ", none, none⟩], []⟩

/-- Guide body with no code-block options but a matching fallback paragraph
for the C7 fixtures. -/
def contentG2 : GuideContent := ⟨[], ["launch with -beta "]⟩

/-- Guide fetcher for the C7 fixtures. -/
def guideFetchC7 : String → Option GuideContent := fun u =>
  if u = "u1" then some contentG1 else if u = "u2" then some contentG2 else none

/-- Listing with two keyword-matched guides for the C7 counterexample. -/
def listingC7 : ListingResult :=
  ListingResult.http 200
    [⟨some "G1 launch guide", some "u1"⟩, ⟨some "G2 launch guide", some "u2"⟩]

/-- Witness for the amended C7: with an empty accumulator, a guide whose code
blocks yield nothing gets the paragraph fallback applied. -/
theorem c7_guide_fallback_amended_witness :
    (([] : List RawOption) = [] →
      processGuides guideFetchC7 [] [("G2 launch guide", "u2")] =
        processGuides guideFetchC7 (guideParagraphOptions contentG2) []) ∧
    (([] : List RawOption) ≠ [] →
      (∀ o ∈ ([] : List RawOption), o.source = "Steam Community") →
      processGuides guideFetchC7 [] [("G2 launch guide", "u2")] =
        processGuides guideFetchC7 [] []) :=
  c7_guide_fallback_amended guideFetchC7 "G2 launch guide" "u2" contentG2 [] []
    (by decide) (by decide)

/-- Counterexample to C7 as stated: guide 2's code blocks yield no options
and its paragraph fallback would yield `-beta`, yet because guide 1 already
produced an option, the extractor never applies guide 2's fallback — the
returned set contains only guide 1's option. -/
theorem c7_guide_fallback_counterexample :
    guideCodeBlockOptions "G2 launch guide" contentG2 = [] ∧
    guideParagraphOptions contentG2 =
      [⟨"-beta", "launch with -beta", "Steam Community"⟩] ∧
    fetchSteamCommunity listingC7 guideFetchC7 =
      [⟨"-alpha", "Found in guide: G1 launch guide", "Steam Community"⟩] ∧
    "-beta" ∉ (fetchSteamCommunity listingC7 guideFetchC7).map RawOption.command :=
  ⟨by decide, by decide, by decide, by decide⟩

/-- A command is well-formed when it is non-empty and not whitespace-only. -/
def GoodCommand (o : RawOption) : Prop := o.command ≠ "" ∧ pyStrip o.command ≠ ""

instance (o : RawOption) : Decidable (GoodCommand o) := by
  unfold GoodCommand
  infer_instance

theorem mk_cons_ne_empty (c : Char) (r : List Char) : (⟨c :: r⟩ : String) ≠ "" := by
  intro h
  have := congrArg String.toList h
  simp at this

theorem goodCommand_of_head_nonspace (o : RawOption) (c : Char) (r : List Char)
    (hcmd : o.command.toList = c :: r) (hc : isPySpace c = false) : GoodCommand o := by
  constructor
  · intro h
    rw [h] at hcmd
    simp at hcmd
  · exact pyStrip_ne_empty_of_nonspace _ c (by rw [hcmd]; exact List.mem_cons_self _ _) hc

theorem tryTokenAt_first (l tok after : List Char) (h : tryTokenAt l = some (tok, after)) :
    ∃ c r, tok = c :: r ∧ isPySpace c = false := by
  cases l with
  | nil => cases h
  | cons c rest =>
    simp only [tryTokenAt] at h
    by_cases hc : (c = '-' || c = '+' || c = '/' : Bool) = true
    · rw [if_pos hc] at h
      have hcns : isPySpace c = false := by
        simp only [Bool.or_eq_true, decide_eq_true_eq] at hc
        rcases hc with (h1 | h1) | h1 <;> subst h1 <;> decide
      by_cases hrun : (rest.takeWhile isTokenChar).isEmpty = true
      · rw [if_pos hrun] at h
        cases h
      · rw [if_neg hrun] at h
        split at h
        · injection h with h'
          injection h' with h1 h2
          exact ⟨c, rest.takeWhile isTokenChar, h1.symm, hcns⟩
        · split at h
          · injection h with h'
            injection h' with h1 h2
            exact ⟨c, rest.takeWhile isTokenChar, h1.symm, hcns⟩
          · cases h
    · rw [if_neg hc] at h
      cases h

theorem findTokensGo_first (fuel : Nat) :
    ∀ (b : Bool) (l : List Char) (tok : List Char), tok ∈ findTokensGo fuel b l →
      ∃ c r, tok = c :: r ∧ isPySpace c = false := by
  induction fuel with
  | zero =>
    intro b l tok h
    cases l <;> simp [findTokensGo] at h
  | succ n ih =>
    intro b l tok h
    cases l with
    | nil => simp [findTokensGo] at h
    | cons c rest =>
      rw [findTokensGo] at h
      cases h1 : (if b then tryTokenAt (c :: rest) else none) with
      | some p =>
        rw [h1] at h
        rcases List.mem_cons.mp h with he | hm
        · subst he
          cases b with
          | true => exact tryTokenAt_first _ _ _ (by simpa using h1)
          | false => simp at h1
        · exact ih false p.2 tok hm
      | none =>
        rw [h1] at h
        by_cases hsp : isPySpace c = true
        · rw [if_pos hsp] at h
          cases h2 : tryTokenAt rest with
          | some q =>
            rw [h2] at h
            rcases List.mem_cons.mp h with he | hm
            · subst he
              exact tryTokenAt_first _ _ _ h2
            · exact ih false q.2 tok hm
          | none =>
            rw [h2] at h
            exact ih false rest tok h
        · rw [if_neg hsp] at h
          exact ih false rest tok h

theorem findCmdTokens_first (text : String) (tok : String) (h : tok ∈ findCmdTokens text) :
    ∃ c r, tok.toList = c :: r ∧ isPySpace c = false := by
  unfold findCmdTokens at h
  rcases List.mem_map.mp h with ⟨tl, htl, he⟩
  rcases findTokensGo_first _ _ _ _ htl with ⟨c, r, hcr, hcs⟩
  refine ⟨c, r, ?_, hcs⟩
  rw [← he, hcr]
  rfl

theorem goodCommand_strip (o : RawOption) (raw : String) (hcmd : o.command = pyStrip raw)
    (hne : o.command ≠ "") : GoodCommand o := by
  refine ⟨hne, ?_⟩
  rw [hcmd] at hne ⊢
  exact pyStrip_strip_ne_empty raw hne

theorem wikiMethod1_good (page : WikiPage) : ∀ o ∈ wikiMethod1 page, GoodCommand o := by
  intro o ho
  unfold wikiMethod1 at ho
  rcases List.mem_flatMap.mp ho with ⟨sid, -, ho⟩
  split at ho
  · simp at ho
  · split at ho
    · simp at ho
    · split at ho
      · split at ho
        · simp at ho
        · split at ho
          · rcases List.mem_flatMap.mp ho with ⟨cells, -, ho⟩
            split at ho
            · split at ho
              · rename_i hne
                rcases List.mem_singleton.mp ho with rfl
                exact goodCommand_strip _ _ rfl hne
              · simp at ho
            · simp at ho
          · simp at ho
      · simp at ho

theorem wikiMethod2_good (page : WikiPage) : ∀ o ∈ wikiMethod2 page, GoodCommand o := by
  intro o ho
  unfold wikiMethod2 at ho
  rcases List.mem_flatMap.mp ho with ⟨sid, -, ho⟩
  split at ho
  · simp at ho
  · split at ho
    · simp at ho
    · split at ho
      · simp at ho
      · rcases List.mem_flatMap.mp ho with ⟨raw, -, ho⟩
        split at ho
        · rename_i hcond
          rcases List.mem_singleton.mp ho with rfl
          exact ⟨hcond.1, hcond.2⟩
        · simp at ho

theorem single_isPrefixOf_cons (c : Char) (l : List Char) (h : [c].isPrefixOf l = true) :
    ∃ r, l = c :: r := by
  cases l with
  | nil => simp at h
  | cons a r =>
    rw [List.isPrefixOf_cons₂] at h
    simp only [List.isPrefixOf_nil_left, Bool.and_true, beq_iff_eq] at h
    exact ⟨r, by rw [h]⟩

theorem wikiMethod3_good (page : WikiPage) : ∀ o ∈ wikiMethod3 page, GoodCommand o := by
  intro o ho
  unfold wikiMethod3 at ho
  rcases List.mem_flatMap.mp ho with ⟨block, -, ho⟩
  split at ho
  · rename_i hstart
    rcases List.mem_singleton.mp ho with rfl
    simp only [Bool.or_eq_true] at hstart
    rcases hstart with (h1 | h1) | h1 <;>
      · rcases single_isPrefixOf_cons _ _ h1 with ⟨r, hr⟩
        exact goodCommand_of_head_nonspace _ _ _ hr (by decide)
  · simp at ho

theorem mem_dedupeExactGo (l : List RawOption) :
    ∀ seen o, o ∈ dedupeExactGo seen l → o ∈ l := by
  induction l with
  | nil => intro seen o ho; simp [dedupeExactGo] at ho
  | cons a rest ih =>
    intro seen o ho
    rw [dedupeExactGo] at ho
    by_cases h : a.command ∈ seen
    · rw [if_pos h] at ho
      exact List.mem_cons_of_mem _ (ih seen o ho)
    · rw [if_neg h] at ho
      rcases List.mem_cons.mp ho with rfl | hm
      · exact List.mem_cons_self _ _
      · exact List.mem_cons_of_mem _ (ih _ o hm)

theorem wikiMethod4_good (page : WikiPage) : ∀ o ∈ wikiMethod4 page, GoodCommand o := by
  intro o ho
  unfold wikiMethod4 at ho
  have ho' := mem_dedupeExactGo _ _ _ ho
  rcases List.mem_flatMap.mp ho' with ⟨text, -, hm⟩
  rcases List.mem_map.mp hm with ⟨tok, htok, he⟩
  rcases findCmdTokens_first text tok htok with ⟨c, r, hcr, hcs⟩
  subst he
  exact goodCommand_of_head_nonspace _ _ _ hcr hcs

theorem extractWikiOptions_good (page : WikiPage) :
    ∀ o ∈ extractWikiOptions page, GoodCommand o := by
  intro o ho
  rw [extractWikiOptions_eq_chain] at ho
  by_cases h1 : wikiMethod1 page = []
  · rw [if_pos h1] at ho
    by_cases h2 : wikiMethod2 page = []
    · rw [if_pos h2] at ho
      by_cases h3 : wikiMethod3 page = []
      · rw [if_pos h3] at ho
        exact wikiMethod4_good page o ho
      · rw [if_neg h3] at ho
        exact wikiMethod3_good page o ho
    · rw [if_neg h2] at ho
      exact wikiMethod2_good page o ho
  · rw [if_neg h1] at ho
    exact wikiMethod1_good page o ho

theorem fetchWikiFuel_good (web : String → WikiResult) (fuel : Nat) :
    ∀ (title : String), ∀ o ∈ fetchWikiFuel web fuel title, GoodCommand o := by
  induction fuel with
  | zero => intro title o ho; simp [fetchWikiFuel] at ho
  | succ n ih =>
    intro title o ho
    rw [fetchWikiFuel] at ho
    split at ho
    · simp at ho
    · split at ho
      · next hst => exact extractWikiOptions_good _ o ho
      · split at ho
        · split at ho
          · split at ho
            · exact ih _ o ho
            · simp at ho
          · simp at ho
        · simp at ho

theorem fetchWiki_good (web : String → WikiResult) (title : String) :
    ∀ o ∈ fetchWiki web title, GoodCommand o :=
  fetchWikiFuel_good web _ title

theorem fetchGameSpecificOptions_good (appId : Nat) (title : String) (cache : Cache)
    (so : List RawOption) (h : fetchGameSpecificOptions appId title cache = some so) :
    ∀ o ∈ so, GoodCommand o := by
  unfold fetchGameSpecificOptions at h
  cases hd : derivedTitle appId cache with
  | none => rw [hd] at h; cases h
  | some dt =>
    rw [hd] at h
    injection h with h'
    subst h'
    intro o ho
    have hsrc : ∀ o' ∈ sourceEngineOptions, GoodCommand o' := by decide
    have hun : ∀ o' ∈ unityEngineOptions, GoodCommand o' := by decide
    have hur : ∀ o' ∈ unrealEngineOptions, GoodCommand o' := by decide
    have hgen : ∀ o' ∈ generalOptions, GoodCommand o' := by decide
    rcases List.mem_append.mp ho with hb | hg
    · split at hb
      · exact hsrc o hb
      · split at hb
        · exact hun o hb
        · split at hb
          · exact hur o hb
          · simp at hb
    · exact hgen o hg

theorem guideCodeBlockOptions_good (title : String) (content : GuideContent) :
    ∀ o ∈ guideCodeBlockOptions title content, GoodCommand o := by
  intro o ho
  unfold guideCodeBlockOptions at ho
  rcases List.mem_flatMap.mp ho with ⟨block, -, hm⟩
  split at hm
  · rcases List.mem_map.mp hm with ⟨tok, htok, he⟩
    rcases findCmdTokens_first _ tok htok with ⟨c, r, hcr, hcs⟩
    subst he
    exact goodCommand_of_head_nonspace _ _ _ hcr hcs
  · simp at hm

theorem guideParagraphOptions_good (content : GuideContent) :
    ∀ o ∈ guideParagraphOptions content, GoodCommand o := by
  intro o ho
  unfold guideParagraphOptions at ho
  rcases List.mem_flatMap.mp ho with ⟨praw, -, hm⟩
  split at hm
  · rcases List.mem_map.mp hm with ⟨tok, htok, he⟩
    rcases findCmdTokens_first _ tok htok with ⟨c, r, hcr, hcs⟩
    subst he
    exact goodCommand_of_head_nonspace _ _ _ hcr hcs
  · simp at hm

theorem processGuides_good (guideFetch : String → Option GuideContent) :
    ∀ (gs : List (String × String)) (acc : List RawOption),
      (∀ o ∈ acc, GoodCommand o) → ∀ o ∈ processGuides guideFetch acc gs, GoodCommand o := by
  intro gs
  induction gs with
  | nil => intro acc hacc o ho; exact hacc o ho
  | cons g rest ih =>
    intro acc hacc o ho
    rw [processGuides] at ho
    cases hf : guideFetch g.2 with
    | none =>
      rw [hf] at ho
      exact ih acc hacc o ho
    | some content =>
      rw [hf] at ho
      refine ih _ ?_ o ho
      intro o' ho'
      split at ho'
      · rcases List.mem_append.mp ho' with hl | hr
        · rcases List.mem_append.mp hl with ha | hc
          · exact hacc o' ha
          · exact guideCodeBlockOptions_good _ _ o' hc
        · exact guideParagraphOptions_good _ o' hr
      · rcases List.mem_append.mp ho' with ha | hc
        · exact hacc o' ha
        · exact guideCodeBlockOptions_good _ _ o' hc

theorem fetchSteamCommunity_good (listing : ListingResult)
    (guideFetch : String → Option GuideContent) :
    ∀ o ∈ fetchSteamCommunity listing guideFetch, GoodCommand o := by
  intro o ho
  unfold fetchSteamCommunity at ho
  split at ho
  · simp at ho
  · split at ho
    · split at ho
      · rcases List.mem_map.mp ho with ⟨gu, -, he⟩
        subst he
        refine goodCommand_of_head_nonspace _ 'S' ("ee guide: " ++ gu.1).toList ?_ (by decide)
        show ("See guide: " ++ gu.1).toList = 'S' :: ("ee guide: " ++ gu.1).toList
        rfl
      · exact processGuides_good guideFetch _ [] (by intro o' h'; simp at h') o ho
    · simp at ho

/-- Per-game pipeline of `core/scraper.py` lines 127-208 in test mode, given
the abstract inputs of the three extractors: the static options are collected
first (an exception there, modelled by `none`, aborts the game), then the
wiki and community sources are consulted in order (each already yields an
empty list on its own failures), and the concatenation is deduplicated.  In
the shipped wiring the community source always raises `TypeError` (it is
called with a `game_title` keyword that `fetch_steam_community_launch_options`
does not accept), which the per-source handler catches, so it contributes
nothing at runtime. -/
def mergedOptionsForGame (appId : Nat) (title : String) (cache : Cache)
    (web : String → WikiResult) (listing : ListingResult)
    (guideFetch : String → Option GuideContent) : Option (List RawOption) :=
  match fetchGameSpecificOptions appId title cache with
  | none => none
  | some statics =>
    some (dedupeOptions
      (statics ++ fetchWiki web title ++ fetchSteamCommunity listing guideFetch))

/-- Web map of the C3 scenario: every wiki page is unreachable. -/
def webAll404 : String → WikiResult := fun _ => WikiResult.http 404 emptyWikiPage

/-- Listing of the C3 scenario: no community guides exist. -/
def listingNoGuides : ListingResult := ListingResult.http 200 []

/-- Guide fetcher of the C3 scenario (never consulted). -/
def guideFetchNone : String → Option GuideContent := fun _ => none

/-- C3: evaluating the pipeline at the scenario's failing input.  For game
730 `Counter-Strike 2` in test mode with a fresh (empty) cache, an
unreachable wiki and no community guides, the merged result is the 3 general
options only, not the claimed 8: `fetch_game_specific_options` ignores the
passed title and derives `Unknown Game Title` from the cache, so no
Source-engine bundle is selected. -/
theorem c3_static_bundle_scenario_divergence :
    mergedOptionsForGame 730 "Counter-Strike 2" [] webAll404 listingNoGuides guideFetchNone =
      some generalOptions ∧
    generalOptions.length = 3 ∧
    pyIn "counter-strike" (pyLower "Counter-Strike 2") = true ∧
    (3 : Nat) ≠ 8 :=
  ⟨by decide, by decide, by decide, by decide⟩

/-- C4: every record in a merged per-game result set has a non-empty,
non-whitespace-only command — each extractor filters empty and
whitespace-only commands before the merge, and the merge keeps a subset of
the concatenated extractor outputs. -/
theorem c4_merged_commands_nonempty (appId : Nat) (title : String) (cache : Cache)
    (statics : List RawOption) (web : String → WikiResult) (listing : ListingResult)
    (guideFetch : String → Option GuideContent)
    (hstat : fetchGameSpecificOptions appId title cache = some statics) :
    ∀ o ∈ dedupeOptions
        (statics ++ fetchWiki web title ++ fetchSteamCommunity listing guideFetch),
      o.command ≠ "" ∧ pyStrip o.command ≠ "" := by
  intro o ho
  have hsub := dedupeGo_sublist
    (statics ++ fetchWiki web title ++ fetchSteamCommunity listing guideFetch) []
  have hmem : o ∈ statics ++ fetchWiki web title ++ fetchSteamCommunity listing guideFetch :=
    hsub.mem ho
  rcases List.mem_append.mp hmem with hl | hc
  · rcases List.mem_append.mp hl with hs | hw
    · exact fetchGameSpecificOptions_good appId title cache statics hstat o hs
    · exact fetchWiki_good web title o hw
  · exact fetchSteamCommunity_good listing guideFetch o hc

/-- Witness for C4 at the C3 scenario input: the first merged option has a
non-empty, non-whitespace command. -/
theorem c4_merged_commands_nonempty_witness :
    (⟨"-fps_max", "Limit maximum FPS (e.g., -fps_max 144)",
        "Common Launch Option"⟩ : RawOption).command ≠ "" ∧
    pyStrip (⟨"-fps_max", "Limit maximum FPS (e.g., -fps_max 144)",
        "Common Launch Option"⟩ : RawOption).command ≠ "" :=
  c4_merged_commands_nonempty 730 "Counter-Strike 2" [] generalOptions webAll404
    listingNoGuides guideFetchNone (by decide)
    ⟨"-fps_max", "Limit maximum FPS (e.g., -fps_max 144)", "Common Launch Option"⟩
    (by decide)

/-- Observable action of the database sink loop: one upsert-plus-join attempt
for an option (`supabase.py` lines 203-238) or the fixed `time.sleep(0.5)`
backoff after a failed attempt (line 247). -/
inductive DbAction where
  | attempt (optIdx : Nat) (attemptIdx : Nat) : DbAction
  | sleepBackoff : DbAction
deriving DecidableEq, Repr

/-- The `for attempt in range(3)` retry loop of `save_to_database`
(`supabase.py` lines 202-247) for the option at index `i`, given an oracle
telling whether attempt `k` of option `i` succeeds (success means the option
upsert returned an id and the junction upsert went through): on success the
loop breaks; on failure it sleeps half a second and retries. -/
def runAttempts (oracle : Nat → Nat → Bool) (i : Nat) : Nat → Nat → Bool × List DbAction
  | _, 0 => (false, [])
  | k, n + 1 =>
    if oracle i k then (true, [DbAction.attempt i k])
    else
      ((runAttempts oracle i (k + 1) n).1,
        DbAction.attempt i k :: DbAction.sleepBackoff ::
          (runAttempts oracle i (k + 1) n).2)

/-- The per-option loop of `save_to_database` (`supabase.py` lines 201-247):
each option gets at most 3 attempts; a success increments `success_count`,
three failures increment `error_count`, and in either case the loop proceeds
to the next option.  Returns `(success_count, error_count, action trace)`. -/
def saveToDatabaseLoop (oracle : Nat → Nat → Bool) : Nat → List RawOption →
    Nat × Nat × List DbAction
  | _, [] => (0, 0, [])
  | i, _o :: rest =>
    ((if (runAttempts oracle i 0 3).1 then 1 else 0) + (saveToDatabaseLoop oracle (i + 1) rest).1,
     (if (runAttempts oracle i 0 3).1 then 0 else 1) +
       (saveToDatabaseLoop oracle (i + 1) rest).2.1,
     (runAttempts oracle i 0 3).2 ++ (saveToDatabaseLoop oracle (i + 1) rest).2.2)

/-- Number of options among the next `n` (starting at index `i`) whose first
three attempts all fail. -/
def failCount (oracle : Nat → Nat → Bool) : Nat → Nat → Nat
  | _, 0 => 0
  | i, n + 1 =>
    (if oracle i 0 || oracle i 1 || oracle i 2 then 0 else 1) + failCount oracle (i + 1) n

theorem runAttempts_first3 (oracle : Nat → Nat → Bool) (i : Nat) :
    (runAttempts oracle i 0 3).1 = (oracle i 0 || oracle i 1 || oracle i 2) := by
  by_cases h0 : oracle i 0 = true
  · simp [runAttempts, h0]
  · by_cases h1 : oracle i 1 = true
    · simp [runAttempts, h0, h1]
    · by_cases h2 : oracle i 2 = true
      · simp [runAttempts, h0, h1, h2]
      · simp [runAttempts, h0, h1, h2]

theorem runAttempts_attempt_lt (oracle : Nat → Nat → Bool) (i : Nat) :
    ∀ (n k : Nat) (j a : Nat), DbAction.attempt j a ∈ (runAttempts oracle i k n).2 →
      j = i ∧ k ≤ a ∧ a < k + n := by
  intro n
  induction n with
  | zero => intro k j a h; simp [runAttempts] at h
  | succ m ih =>
    intro k j a h
    rw [runAttempts] at h
    by_cases hk : oracle i k = true
    · rw [if_pos hk] at h
      rcases List.mem_singleton.mp h with he
      injection he with he1 he2
      omega
    · rw [if_neg hk] at h
      rcases List.mem_cons.mp h with he | h'
      · injection he with he1 he2
        omega
      · rcases List.mem_cons.mp h' with he | h''
        · cases he
        · have := ih (k + 1) j a h''
          omega

theorem runAttempts_attempt_first (oracle : Nat → Nat → Bool) (i : Nat) (n k : Nat)
    (hn : 0 < n) : DbAction.attempt i k ∈ (runAttempts oracle i k n).2 := by
  cases n with
  | zero => omega
  | succ m =>
    rw [runAttempts]
    by_cases hk : oracle i k = true
    · rw [if_pos hk]; exact List.mem_singleton.mpr rfl
    · rw [if_neg hk]; exact List.mem_cons_self _ _

theorem saveToDatabaseLoop_counts (oracle : Nat → Nat → Bool) :
    ∀ (options : List RawOption) (i0 : Nat),
      (saveToDatabaseLoop oracle i0 options).1 + (saveToDatabaseLoop oracle i0 options).2.1 =
        options.length ∧
      (saveToDatabaseLoop oracle i0 options).2.1 = failCount oracle i0 options.length := by
  intro options
  induction options with
  | nil => intro i0; simp [saveToDatabaseLoop, failCount]
  | cons o rest ih =>
    intro i0
    rw [saveToDatabaseLoop]
    constructor
    · have h := (ih (i0 + 1)).1
      by_cases hs : (runAttempts oracle i0 0 3).1 = true <;> simp [hs] <;> omega
    · have h := (ih (i0 + 1)).2
      rw [show (o :: rest).length = rest.length + 1 from rfl, failCount]
      rw [runAttempts_first3]
      by_cases hs : (oracle i0 0 || oracle i0 1 || oracle i0 2) = true <;> simp [hs, h]

theorem saveToDatabaseLoop_trace (oracle : Nat → Nat → Bool) :
    ∀ (options : List RawOption) (i0 : Nat),
      (∀ j a, DbAction.attempt j a ∈ (saveToDatabaseLoop oracle i0 options).2.2 → a < 3) ∧
      (∀ j, j < options.length →
        DbAction.attempt (i0 + j) 0 ∈ (saveToDatabaseLoop oracle i0 options).2.2) := by
  intro options
  induction options with
  | nil => intro i0; constructor <;> intro j <;> simp [saveToDatabaseLoop]
  | cons o rest ih =>
    intro i0
    rw [saveToDatabaseLoop]
    constructor
    · intro j a h
      rcases List.mem_append.mp h with h1 | h2
      · have := runAttempts_attempt_lt oracle i0 3 0 j a h1
        omega
      · exact (ih (i0 + 1)).1 j a h2
    · intro j hj
      cases j with
      | zero =>
        refine List.mem_append.mpr (Or.inl ?_)
        simpa using runAttempts_attempt_first oracle i0 3 0 (by omega)
      | succ m =>
        refine List.mem_append.mpr (Or.inr ?_)
        have := (ih (i0 + 1)).2 m (by simpa using Nat.lt_of_succ_lt_succ hj)
        simpa [Nat.add_assoc, Nat.add_comm, Nat.add_left_comm] using this

/-- C9: in the database sink, every option is attempted at most 3 times with
the fixed half-second backoff recorded between consecutive attempts; an
option failing all 3 attempts is counted in `error_count`; and processing
never aborts — every option of the list gets its first attempt, and the
success and error counts always add up to the number of options. -/
theorem c9_db_option_retry_policy (oracle : Nat → Nat → Bool) (i0 : Nat)
    (options : List RawOption) :
    ((saveToDatabaseLoop oracle i0 options).1 + (saveToDatabaseLoop oracle i0 options).2.1 =
      options.length) ∧
    ((saveToDatabaseLoop oracle i0 options).2.1 = failCount oracle i0 options.length) ∧
    (∀ j a, DbAction.attempt j a ∈ (saveToDatabaseLoop oracle i0 options).2.2 → a < 3) ∧
    (∀ j, j < options.length →
      DbAction.attempt (i0 + j) 0 ∈ (saveToDatabaseLoop oracle i0 options).2.2) ∧
    (∀ i k n, oracle i k = false → 0 < n →
      (runAttempts oracle i k n).2 =
        DbAction.attempt i k :: DbAction.sleepBackoff ::
          (runAttempts oracle i (k + 1) (n - 1)).2) :=
  ⟨(saveToDatabaseLoop_counts oracle options i0).1,
   (saveToDatabaseLoop_counts oracle options i0).2,
   (saveToDatabaseLoop_trace oracle options i0).1,
   (saveToDatabaseLoop_trace oracle options i0).2,
   by
    intro i k n hik hn
    cases n with
    | zero => omega
    | succ m =>
      rw [runAttempts, if_neg (by simp [hik])]
      simp⟩

/-- Oracle for the C9 witness: option 0 fails all attempts, option 1
succeeds on its third attempt. -/
def oracleC9 : Nat → Nat → Bool := fun i k => decide (i = 1 ∧ k = 2)

/-- Witness for C9 at a concrete two-option run: one success, one failure,
and the counts add up. -/
theorem c9_db_option_retry_policy_witness :
    (saveToDatabaseLoop oracleC9 0
        [⟨"-novid", "d", "s"⟩, ⟨"-console", "d", "s"⟩]).1 +
      (saveToDatabaseLoop oracleC9 0
        [⟨"-novid", "d", "s"⟩, ⟨"-console", "d", "s"⟩]).2.1 = 2 ∧
    (saveToDatabaseLoop oracleC9 0
        [⟨"-novid", "d", "s"⟩, ⟨"-console", "d", "s"⟩]).2.1 = failCount oracleC9 0 2 :=
  ⟨(c9_db_option_retry_policy oracleC9 0
      [⟨"-novid", "d", "s"⟩, ⟨"-console", "d", "s"⟩]).1,
   (c9_db_option_retry_policy oracleC9 0
      [⟨"-novid", "d", "s"⟩, ⟨"-console", "d", "s"⟩]).2.1⟩

/-- Opening brace character, written by code point. -/
def lbraceChar : Char := Char.ofNat 123

/-- Closing brace character, written by code point. -/
def rbraceChar : Char := Char.ofNat 125

/-- JSON whitespace skipped by Python's `json.load` between tokens. -/
def isJsonWs (c : Char) : Bool := c == ' ' || c == '\t' || c == '\n' || c == '\r'

/-- Skip JSON whitespace. -/
def skipWs (l : List Char) : List Char := l.dropWhile isJsonWs

/-- ASCII decimal digit. -/
def isDigitChar (c : Char) : Bool := 48 ≤ c.toNat && c.toNat ≤ 57

/-- Digit character for a value below ten. -/
def digitChar (n : Nat) : Char := Char.ofNat (48 + n)

/-- Decimal digit list of a natural number, most significant first; the fuel
is always at least `n + 1`, which suffices since `n / 10 < n`. -/
def natPrintAux : Nat → Nat → List Char
  | 0, _ => []
  | fuel + 1, n => if n < 10 then [digitChar n] else natPrintAux fuel (n / 10) ++ [digitChar (n % 10)]

/-- Decimal representation of a natural number. -/
def natPrint (n : Nat) : List Char := natPrintAux (n + 1) n

/-- Python `repr` of an `int` as `json.dump` writes it. -/
def intPrint (n : Int) : List Char :=
  if n < 0 then '-' :: natPrint n.natAbs else natPrint n.natAbs

/-- Numeric value of a digit list (most significant first). -/
def digitsVal (l : List Char) : Nat := l.foldl (fun acc c => acc * 10 + (c.toNat - 48)) 0

/-- JSON string escaping as `json.dump` performs it on the character set
admitted by `wfChar` (the `\uXXXX` escapes of `ensure_ascii` never arise
there). -/
def jsonEscapeChar (c : Char) : List Char :=
  if c = '"' then ['\\', '"']
  else if c = '\\' then ['\\', '\\']
  else if c = '\n' then ['\\', 'n']
  else if c = '\t' then ['\\', 't']
  else if c = '\r' then ['\\', 'r']
  else [c]

/-- A quoted, escaped JSON string literal. -/
def jsonQuote (s : String) : List Char :=
  '"' :: s.toList.flatMap jsonEscapeChar ++ ['"']

/-- Indentation block of `json.dump(indent=2)`. -/
def indentSp (n : Nat) : List Char := List.replicate n ' '

mutual
/-- Embedding of `json.dump(v, f, indent=2)` (`utils/cache.py` line 36):
two-space indentation, `",\n"`-with-indent item separators, `": "` key
separators, compact empty containers. -/
def dumpVal : Nat → Json → List Char
  | _, Json.null => "null".toList
  | _, Json.bool true => "true".toList
  | _, Json.bool false => "false".toList
  | _, Json.num n => intPrint n
  | _, Json.str s => jsonQuote s
  | ind, Json.arr items =>
    match items with
    | [] => "[]".toList
    | _ :: _ => '[' :: (dumpArrItems (ind + 2) items ++ '\n' :: (indentSp ind ++ [']']))
  | ind, Json.obj entries =>
    match entries with
    | [] => [lbraceChar, rbraceChar]
    | _ :: _ =>
      lbraceChar :: (dumpObjItems (ind + 2) entries ++ '\n' :: (indentSp ind ++ [rbraceChar]))

/-- Comma-separated, newline-and-indent-prefixed array items. -/
def dumpArrItems : Nat → List Json → List Char
  | _, [] => []
  | ind, x :: rest =>
    '\n' :: (indentSp ind ++ dumpVal ind x ++
      (match rest with
       | [] => []
       | _ :: _ => ',' :: dumpArrItems ind rest))

/-- Comma-separated, newline-and-indent-prefixed object entries. -/
def dumpObjItems : Nat → List (String × Json) → List Char
  | _, [] => []
  | ind, e :: rest =>
    '\n' :: (indentSp ind ++ jsonQuote e.1 ++ ':' :: ' ' :: dumpVal ind e.2 ++
      (match rest with
       | [] => []
       | _ :: _ => ',' :: dumpObjItems ind rest))
end

/-- Characters representable in this model's strings: printable ASCII plus
the escapable control characters newline, tab and carriage return.  Python's
`json.dump(ensure_ascii=True)` writes exactly these without `\uXXXX`
escapes, which this development does not model. -/
def wfChar (c : Char) : Bool :=
  (32 ≤ c.toNat && c.toNat < 127) || c = '\n' || c = '\t' || c = '\r'

/-- A string of representable characters. -/
def wfString (s : String) : Bool := s.toList.all wfChar

mutual
/-- Well-formed cache values: the JSON image of a Python object whose
strings are representable and whose dictionaries have pairwise distinct
keys in insertion order, as Python dictionaries guarantee. -/
def wfJson : Json → Bool
  | Json.null => true
  | Json.bool _ => true
  | Json.num _ => true
  | Json.str s => wfString s
  | Json.arr items => wfJsonList items
  | Json.obj entries =>
    wfJsonEntries entries && decide ((entries.map Prod.fst).Nodup)

/-- All members well-formed. -/
def wfJsonList : List Json → Bool
  | [] => true
  | x :: xs => wfJson x && wfJsonList xs

/-- All keys representable and all values well-formed. -/
def wfJsonEntries : List (String × Json) → Bool
  | [] => true
  | e :: es => wfString e.1 && wfJson e.2 && wfJsonEntries es
end

/-- Single-character unescapes accepted after a backslash (the `\uXXXX` form
is not modelled; inputs using it count as unparseable). -/
def unescapeChar (e : Char) : Option Char :=
  if e = '"' then some '"'
  else if e = '\\' then some '\\'
  else if e = '/' then some '/'
  else if e = 'n' then some '\n'
  else if e = 't' then some '\t'
  else if e = 'r' then some '\r'
  else if e = 'b' then some '\x08'
  else if e = 'f' then some '\x0c'
  else none

/-- Body of a JSON string literal after the opening quote: returns the
decoded characters and the input after the closing quote. -/
def parseStringBody : List Char → Option (List Char × List Char)
  | [] => none
  | c :: r =>
    if c = '"' then some ([], r)
    else if c = '\\' then
      match r with
      | [] => none
      | e :: r2 =>
        match unescapeChar e with
        | none => none
        | some d =>
          match parseStringBody r2 with
          | none => none
          | some (s, r3) => some (d :: s, r3)
    else if 32 ≤ c.toNat then
      match parseStringBody r with
      | none => none
      | some (s, r2) => some (c :: s, r2)
    else none

/-- Literal matcher. -/
def expectLit (pat l : List Char) : Option (List Char) :=
  if pat.isPrefixOf l then some (l.drop pat.length) else none

mutual
/-- Recursive-descent JSON value parser modelling Python's `json.load`
(`utils/cache.py` line 17) on the fragment written by `json.dump` of
well-formed values: on other inputs it may reject where Python accepts
(floats, `\uXXXX`, `NaN`/`Infinity`), which only widens the set of inputs
treated as corrupt.  The fuel bounds recursion depth; every recursive call
consumes at least one input character first, so `length + 1` fuel always
suffices. -/
def parseJsonVal : Nat → List Char → Option (Json × List Char)
  | 0, _ => none
  | fuel + 1, l =>
    match skipWs l with
    | [] => none
    | c :: r =>
      if c = 'n' then
        match expectLit "ull".toList r with
        | none => none
        | some r2 => some (Json.null, r2)
      else if c = 't' then
        match expectLit "rue".toList r with
        | none => none
        | some r2 => some (Json.bool true, r2)
      else if c = 'f' then
        match expectLit "alse".toList r with
        | none => none
        | some r2 => some (Json.bool false, r2)
      else if c = '"' then
        match parseStringBody r with
        | none => none
        | some (s, r2) => some (Json.str ⟨s⟩, r2)
      else if c = '-' then
        if (r.takeWhile isDigitChar).isEmpty then none
        else some (Json.num (-(digitsVal (r.takeWhile isDigitChar) : Int)),
          r.drop (r.takeWhile isDigitChar).length)
      else if isDigitChar c then
        some (Json.num (digitsVal ((c :: r).takeWhile isDigitChar)),
          (c :: r).drop ((c :: r).takeWhile isDigitChar).length)
      else if c = '[' then
        if (skipWs r).head? = some ']' then some (Json.arr [], (skipWs r).tail)
        else
          match parseJsonVal fuel r with
          | none => none
          | some (v, r2) =>
            match parseArrTail fuel r2 with
            | none => none
            | some (vs, r3) => some (Json.arr (v :: vs), r3)
      else if c = lbraceChar then
        if (skipWs r).head? = some rbraceChar then some (Json.obj [], (skipWs r).tail)
        else
          match skipWs r with
          | '"' :: r2 =>
            match parseStringBody r2 with
            | none => none
            | some (k, r3) =>
              match skipWs r3 with
              | ':' :: r4 =>
                match parseJsonVal fuel r4 with
                | none => none
                | some (v, r5) =>
                  match parseObjTail fuel r5 with
                  | none => none
                  | some (es, r6) => some (Json.obj ((⟨k⟩, v) :: es), r6)
              | _ => none
          | _ => none
      else none

/-- Array continuation after one parsed element: `,` value ... `]`. -/
def parseArrTail : Nat → List Char → Option (List Json × List Char)
  | 0, _ => none
  | fuel + 1, l =>
    match skipWs l with
    | ']' :: r => some ([], r)
    | ',' :: r =>
      match parseJsonVal fuel r with
      | none => none
      | some (v, r2) =>
        match parseArrTail fuel r2 with
        | none => none
        | some (vs, r3) => some (v :: vs, r3)
    | _ => none

/-- Object continuation after one parsed entry: `, "key": value ...` or
the closing brace. -/
def parseObjTail : Nat → List Char → Option (List (String × Json) × List Char)
  | 0, _ => none
  | fuel + 1, l =>
    match skipWs l with
    | [] => none
    | c :: r =>
      if c = rbraceChar then some ([], r)
      else if c = ',' then
        match skipWs r with
        | '"' :: r2 =>
          match parseStringBody r2 with
          | none => none
          | some (k, r3) =>
            match skipWs r3 with
            | ':' :: r4 =>
              match parseJsonVal fuel r4 with
              | none => none
              | some (v, r5) =>
                match parseObjTail fuel r5 with
                | none => none
                | some (es, r6) => some ((⟨k⟩, v) :: es, r6)
            | _ => none
        | _ => none
      else none
end

/-- Embedding of `json.load` on the whole file text: parse one value and
require only whitespace after it (`json.load` raises `Extra data`
otherwise); `none` models a raised `JSONDecodeError`. -/
def parseJsonTop (s : String) : Option Json :=
  match parseJsonVal (s.toList.length + 1) s.toList with
  | none => none
  | some (v, rest) => if (skipWs rest).isEmpty then some v else none

/-- Embedding of `save_cache` (`utils/cache.py` lines 26-39): the file text
written by `json.dump(cache, f, indent=2)`. -/
def saveCacheStr (v : Json) : String := ⟨dumpVal 0 v⟩

/-- Embedding of `load_cache` (`utils/cache.py` lines 4-24): a missing file
(`none`) or an unparseable file yields the empty dictionary instead of
raising. -/
def loadCache (file : Option String) : Json :=
  match file with
  | none => Json.obj []
  | some s =>
    match parseJsonTop s with
    | none => Json.obj []
    | some v => v

theorem skipWs_cons_of_ws (c : Char) (l : List Char) (h : isJsonWs c = true) :
    skipWs (c :: l) = skipWs l := by
  unfold skipWs
  rw [List.dropWhile_cons_of_pos h]

theorem skipWs_cons_of_not_ws (c : Char) (l : List Char) (h : isJsonWs c = false) :
    skipWs (c :: l) = c :: l := by
  unfold skipWs
  rw [List.dropWhile_cons_of_neg (by simp [h])]

theorem skipWs_append_ws (ws l : List Char) (h : ∀ c ∈ ws, isJsonWs c = true) :
    skipWs (ws ++ l) = skipWs l := by
  induction ws with
  | nil => rfl
  | cons c cs ih =>
    rw [List.cons_append, skipWs_cons_of_ws c _ (h c (by simp))]
    exact ih (fun c' hc' => h c' (by simp [hc']))

theorem indentSp_all_ws (n : Nat) : ∀ c ∈ indentSp n, isJsonWs c = true := by
  intro c hc
  rw [indentSp] at hc
  rw [List.eq_of_mem_replicate hc]
  rfl

theorem expectLit_append (pat rest : List Char) : expectLit pat (pat ++ rest) = some rest := by
  unfold expectLit
  rw [if_pos (List.isPrefixOf_iff_prefix.mpr (List.prefix_append pat rest))]
  rw [List.drop_left]

theorem digitChar_toNat (d : Nat) (h : d < 10) : (digitChar d).toNat = 48 + d := by
  interval_cases d <;> decide

theorem digitChar_isDigit (d : Nat) (h : d < 10) : isDigitChar (digitChar d) = true := by
  interval_cases d <;> decide

theorem digitsVal_append_singleton (a : List Char) (c : Char) :
    digitsVal (a ++ [c]) = digitsVal a * 10 + (c.toNat - 48) := by
  unfold digitsVal
  rw [List.foldl_append]
  rfl

theorem natPrintAux_spec (fuel : Nat) :
    ∀ n, n < fuel →
      natPrintAux fuel n ≠ [] ∧ (∀ c ∈ natPrintAux fuel n, isDigitChar c = true) ∧
        digitsVal (natPrintAux fuel n) = n := by
  induction fuel with
  | zero => intro n h; omega
  | succ m ih =>
    intro n h
    rw [natPrintAux]
    by_cases h10 : n < 10
    · rw [if_pos h10]
      refine ⟨by simp, ?_, ?_⟩
      · intro c hc
        rw [List.mem_singleton.mp hc]
        exact digitChar_isDigit n h10
      · show digitsVal ([] ++ [digitChar n]) = n
        rw [digitsVal_append_singleton]
        show digitsVal [] * 10 + ((digitChar n).toNat - 48) = n
        rw [digitChar_toNat n h10]
        have hz : digitsVal [] = 0 := rfl
        rw [hz]
        omega
    · rw [if_neg h10]
      have hdiv : n / 10 < m := by omega
      obtain ⟨hne, hdig, hval⟩ := ih (n / 10) hdiv
      refine ⟨by simp, ?_, ?_⟩
      · intro c hc
        rcases List.mem_append.mp hc with h1 | h1
        · exact hdig c h1
        · rw [List.mem_singleton.mp h1]
          exact digitChar_isDigit (n % 10) (Nat.mod_lt n (by omega))
      · rw [digitsVal_append_singleton, hval, digitChar_toNat (n % 10) (Nat.mod_lt n (by omega))]
        omega

theorem natPrint_spec (n : Nat) :
    natPrint n ≠ [] ∧ (∀ c ∈ natPrint n, isDigitChar c = true) ∧
      digitsVal (natPrint n) = n :=
  natPrintAux_spec (n + 1) n (by omega)

theorem digit_ne_starters (c : Char) (h : isDigitChar c = true) :
    c ≠ 'n' ∧ c ≠ 't' ∧ c ≠ 'f' ∧ c ≠ '"' ∧ c ≠ '-' ∧ c ≠ '[' ∧ c ≠ lbraceChar ∧
      c ≠ ']' ∧ c ≠ ',' ∧ c ≠ rbraceChar ∧ isJsonWs c = false := by
  refine ⟨?_, ?_, ?_, ?_, ?_, ?_, ?_, ?_, ?_, ?_, ?_⟩ <;>
    first
    | (intro he; rw [he] at h; exact absurd h (by decide))
    | (cases hw : isJsonWs c
       · rfl
       · exfalso
         simp only [isJsonWs, Bool.or_eq_true, beq_iff_eq] at hw
         rcases hw with ((h1 | h1) | h1) | h1 <;> rw [h1] at h <;> exact absurd h (by decide))

theorem takeWhile_append_of_all (p : Char → Bool) (a rest : List Char)
    (h : ∀ c ∈ a, p c = true) :
    (a ++ rest).takeWhile p = a ++ rest.takeWhile p ∧
      (a ++ rest).dropWhile p = rest.dropWhile p := by
  induction a with
  | nil => simp
  | cons c cs ih =>
    obtain ⟨ht, hd⟩ := ih (fun c' hc' => h c' (by simp [hc']))
    constructor
    · rw [List.cons_append, List.takeWhile_cons_of_pos (h c (by simp)), ht, List.cons_append]
    · rw [List.cons_append, List.dropWhile_cons_of_pos (h c (by simp)), hd]

theorem takeWhile_nil_of_head (p : Char → Bool) (rest : List Char)
    (h : ∀ c, rest.head? = some c → p c = false) :
    rest.takeWhile p = [] ∧ rest.dropWhile p = rest := by
  cases rest with
  | nil => simp
  | cons c cs =>
    have := h c rfl
    constructor
    · rw [List.takeWhile_cons_of_neg (by simp [this])]
    · rw [List.dropWhile_cons_of_neg (by simp [this])]

/-- One parse step: a quote closes the string body. -/
theorem parseStringBody_step_quote (r : List Char) :
    parseStringBody ('"' :: r) = some ([], r) := by
  simp [parseStringBody.eq_def]

/-- One parse step: a backslash followed by a decodable escape character
prepends the decoded character. -/
theorem parseStringBody_step_esc (e d : Char) (he : unescapeChar e = some d)
    (r s r3 : List Char) (hr : parseStringBody r = some (s, r3)) :
    parseStringBody ('\\' :: e :: r) = some (d :: s, r3) := by
  simp [parseStringBody, he, hr]

/-- One parse step: a plain printable character prepends itself. -/
theorem parseStringBody_step_plain (c : Char) (hq : ¬ c = '"') (hb : ¬ c = '\\')
    (h32 : 32 ≤ c.toNat) (r s r2 : List Char)
    (hr : parseStringBody r = some (s, r2)) :
    parseStringBody (c :: r) = some (c :: s, r2) := by
  rw [parseStringBody.eq_def]
  simp [hq, hb, h32, hr]

/-- Parsing the escaped body of a representable string recovers it exactly. -/
theorem parseStringBody_quote (s : List Char) (hwf : s.all wfChar = true)
    (rest : List Char) :
    parseStringBody (s.flatMap jsonEscapeChar ++ '"' :: rest) = some (s, rest) := by
  induction s with
  | nil =>
    show parseStringBody ('"' :: rest) = some ([], rest)
    exact parseStringBody_step_quote rest
  | cons c cs ih =>
    have hc : wfChar c = true := List.all_eq_true.mp hwf c (by simp)
    have hcs : cs.all wfChar = true := by
      rw [List.all_eq_true]
      intro x hx
      exact List.all_eq_true.mp hwf x (by simp [hx])
    have ihcs := ih hcs
    rw [List.flatMap_cons, List.append_assoc]
    by_cases hq : c = '"'
    · subst hq
      show parseStringBody ('\\' :: '"' :: (cs.flatMap jsonEscapeChar ++ '"' :: rest)) =
        some ('"' :: cs, rest)
      exact parseStringBody_step_esc '"' '"' rfl _ _ _ ihcs
    · by_cases hb : c = '\\'
      · subst hb
        show parseStringBody ('\\' :: '\\' :: (cs.flatMap jsonEscapeChar ++ '"' :: rest)) =
          some ('\\' :: cs, rest)
        exact parseStringBody_step_esc '\\' '\\' rfl _ _ _ ihcs
      · by_cases hn : c = '\n'
        · subst hn
          show parseStringBody ('\\' :: 'n' :: (cs.flatMap jsonEscapeChar ++ '"' :: rest)) =
            some ('\n' :: cs, rest)
          exact parseStringBody_step_esc 'n' '\n' rfl _ _ _ ihcs
        · by_cases ht : c = '\t'
          · subst ht
            show parseStringBody ('\\' :: 't' :: (cs.flatMap jsonEscapeChar ++ '"' :: rest)) =
              some ('\t' :: cs, rest)
            exact parseStringBody_step_esc 't' '\t' rfl _ _ _ ihcs
          · by_cases hr : c = '\r'
            · subst hr
              show parseStringBody ('\\' :: 'r' :: (cs.flatMap jsonEscapeChar ++ '"' :: rest)) =
                some ('\r' :: cs, rest)
              exact parseStringBody_step_esc 'r' '\r' rfl _ _ _ ihcs
            · have hesc : jsonEscapeChar c = [c] := by
                unfold jsonEscapeChar
                rw [if_neg hq, if_neg hb, if_neg hn, if_neg ht, if_neg hr]
              rw [hesc]
              have h32 : 32 <= c.toNat := by
                simp only [wfChar, Bool.or_eq_true, Bool.and_eq_true, decide_eq_true_eq,
                  beq_iff_eq] at hc
                rcases hc with ((h1 | h1) | h1) | h1
                . omega
                . exact absurd h1 hn
                . exact absurd h1 ht
                . exact absurd h1 hr
              show parseStringBody (c :: (cs.flatMap jsonEscapeChar ++ '"' :: rest)) =
                some (c :: cs, rest)
              exact parseStringBody_step_plain c hq hb h32 _ _ _ ihcs


theorem string_mk_toList (s : String) : (⟨s.toList⟩ : String) = s := by
  cases s
  rfl

/-- The serialized form of any value starts with a non-whitespace character
that is neither a closing bracket nor a closing brace. -/
theorem dumpVal_head_ok (ind : Nat) (v : Json) :
    ∃ c t, dumpVal ind v = c :: t ∧ isJsonWs c = false ∧ c ≠ ']' ∧ c ≠ rbraceChar := by
  cases v with
  | null => exact ⟨'n', _, rfl, by decide, by decide, by decide⟩
  | bool b =>
    cases b with
    | false => exact ⟨'f', _, rfl, by decide, by decide, by decide⟩
    | true => exact ⟨'t', _, rfl, by decide, by decide, by decide⟩
  | num n =>
    by_cases hneg : n < 0
    · refine ⟨'-', natPrint n.natAbs, ?_, by decide, by decide, by decide⟩
      show intPrint n = '-' :: natPrint n.natAbs
      rw [intPrint, if_pos hneg]
    · obtain ⟨hne, hdig, hval⟩ := natPrint_spec n.natAbs
      obtain ⟨c, t, hct⟩ := List.exists_cons_of_ne_nil hne
      have hc : isDigitChar c = true := hdig c (by rw [hct]; simp)
      obtain ⟨h1, h2, h3, h4, h5, h6, h7, h8, h9, h10, h11⟩ := digit_ne_starters c hc
      refine ⟨c, t, ?_, h11, h8, h10⟩
      show intPrint n = c :: t
      rw [intPrint, if_neg hneg, hct]
  | str s => exact ⟨'"', _, rfl, by decide, by decide, by decide⟩
  | arr items => cases items with
    | nil => exact ⟨'[', _, rfl, by decide, by decide, by decide⟩
    | cons x xs => exact ⟨'[', _, rfl, by decide, by decide, by decide⟩
  | obj entries => cases entries with
    | nil => exact ⟨lbraceChar, _, rfl, by decide, by decide, by decide⟩
    | cons e es => exact ⟨lbraceChar, _, rfl, by decide, by decide, by decide⟩

/-- Input remaining for the array-tail parser after one parsed element. -/
def arrTailInput (ind : Nat) (xs : List Json) (rest : List Char) : List Char :=
  (match xs with
   | [] => []
   | _ :: _ => ',' :: dumpArrItems (ind + 2) xs) ++ '\n' :: (indentSp ind ++ ']' :: rest)

/-- Input remaining for the object-tail parser after one parsed entry. -/
def objTailInput (ind : Nat) (es : List (String × Json)) (rest : List Char) : List Char :=
  (match es with
   | [] => []
   | _ :: _ => ',' :: dumpObjItems (ind + 2) es) ++ '\n' :: (indentSp ind ++ rbraceChar :: rest)

theorem arrTailInput_head (ind : Nat) (xs : List Json) (rest : List Char) :
    ∃ c t, arrTailInput ind xs rest = c :: t ∧ isDigitChar c = false := by
  cases xs with
  | nil => exact ⟨'\n', _, rfl, by decide⟩
  | cons x xs => exact ⟨',', _, rfl, by decide⟩

theorem objTailInput_head (ind : Nat) (es : List (String × Json)) (rest : List Char) :
    ∃ c t, objTailInput ind es rest = c :: t ∧ isDigitChar c = false := by
  cases es with
  | nil => exact ⟨'\n', _, rfl, by decide⟩
  | cons e es => exact ⟨',', _, rfl, by decide⟩



theorem rt_null (m ind : Nat) (ws rest : List Char) (hws : ∀ c ∈ ws, isJsonWs c = true) :
    parseJsonVal (m + 1) (ws ++ (dumpVal ind Json.null ++ rest)) = some (Json.null, rest) := by
  have hskip : skipWs (ws ++ (dumpVal ind Json.null ++ rest)) = 'n' :: ("ull".toList ++ rest) := by
    rw [skipWs_append_ws ws _ hws]
    show skipWs ('n' :: ("ull".toList ++ rest)) = 'n' :: ("ull".toList ++ rest)
    exact skipWs_cons_of_not_ws _ _ (by decide)
  have he : expectLit ['u', 'l', 'l'] ('u' :: 'l' :: 'l' :: rest) = some rest :=
    expectLit_append ['u', 'l', 'l'] rest
  rw [parseJsonVal.eq_def]
  simp [hskip, he]

theorem rt_num (m ind : Nat) (n : Int) (ws rest : List Char)
    (hws : ∀ c ∈ ws, isJsonWs c = true)
    (hguard : ∀ c, rest.head? = some c → isDigitChar c = false) :
    parseJsonVal (m + 1) (ws ++ (dumpVal ind (Json.num n) ++ rest)) = some (Json.num n, rest) := by
  obtain ⟨hne, hdig, hval⟩ := natPrint_spec n.natAbs
  obtain ⟨htake, hdrop⟩ := takeWhile_append_of_all isDigitChar (natPrint n.natAbs) rest hdig
  obtain ⟨htw0, hdw0⟩ := takeWhile_nil_of_head isDigitChar rest hguard
  by_cases hneg : n < 0
  · have hdump : dumpVal ind (Json.num n) = '-' :: natPrint n.natAbs := by
      show intPrint n = '-' :: natPrint n.natAbs
      rw [intPrint, if_pos hneg]
    have hskip : skipWs (ws ++ (dumpVal ind (Json.num n) ++ rest)) =
        '-' :: (natPrint n.natAbs ++ rest) := by
      rw [skipWs_append_ws ws _ hws, hdump, List.cons_append]
      exact skipWs_cons_of_not_ws _ _ (by decide)
    rw [parseJsonVal.eq_def]
    simp only [hskip]
    have h1 : List.takeWhile isDigitChar (natPrint n.natAbs ++ rest) = natPrint n.natAbs := by
      rw [htake, htw0, List.append_nil]
    have h2 : (List.takeWhile isDigitChar (natPrint n.natAbs ++ rest)).isEmpty = false := by
      rw [h1]
      cases hx : natPrint n.natAbs with
      | nil => exact absurd hx hne
      | cons a b => rfl
    simp only [h1, h2]
    simp [hval, List.drop_left]
    exact ⟨hne, by rw [abs_of_neg hneg, neg_neg]⟩
  · have hdump : dumpVal ind (Json.num n) = natPrint n.natAbs := by
      show intPrint n = natPrint n.natAbs
      rw [intPrint, if_neg hneg]
    obtain ⟨c0, t0, hct⟩ := List.exists_cons_of_ne_nil hne
    have hc0 : isDigitChar c0 = true := hdig c0 (by rw [hct]; simp)
    obtain ⟨h1, h2, h3, h4, h5, h6, h7, h8, h9, h10, h11⟩ := digit_ne_starters c0 hc0
    have hskip : skipWs (ws ++ (dumpVal ind (Json.num n) ++ rest)) = c0 :: (t0 ++ rest) := by
      rw [skipWs_append_ws ws _ hws, hdump, hct, List.cons_append]
      exact skipWs_cons_of_not_ws _ _ (by simp [isJsonWs] at h11 ⊢; tauto)
    rw [parseJsonVal.eq_def]
    simp only [hskip]
    rw [if_neg h1, if_neg h2, if_neg h3, if_neg h4, if_neg h5, if_pos hc0]
    have hcons : c0 :: (t0 ++ rest) = natPrint n.natAbs ++ rest := by
      rw [hct, List.cons_append]
    rw [hcons]
    have htw : List.takeWhile isDigitChar (natPrint n.natAbs ++ rest) = natPrint n.natAbs := by
      rw [htake, htw0, List.append_nil]
    rw [htw, hval, List.drop_left]
    have : (n.natAbs : Int) = n := by omega
    rw [this]


theorem rt_bool (m ind : Nat) (b : Bool) (ws rest : List Char)
    (hws : ∀ c ∈ ws, isJsonWs c = true) :
    parseJsonVal (m + 1) (ws ++ (dumpVal ind (Json.bool b) ++ rest)) =
      some (Json.bool b, rest) := by
  cases b with
  | true =>
    have hskip : skipWs (ws ++ (dumpVal ind (Json.bool true) ++ rest)) =
        't' :: ("rue".toList ++ rest) := by
      rw [skipWs_append_ws ws _ hws]
      show skipWs ('t' :: ("rue".toList ++ rest)) = 't' :: ("rue".toList ++ rest)
      exact skipWs_cons_of_not_ws _ _ (by decide)
    have he : expectLit ['r', 'u', 'e'] ('r' :: 'u' :: 'e' :: rest) = some rest :=
      expectLit_append ['r', 'u', 'e'] rest
    rw [parseJsonVal.eq_def]
    simp [hskip, he]
  | false =>
    have hskip : skipWs (ws ++ (dumpVal ind (Json.bool false) ++ rest)) =
        'f' :: ("alse".toList ++ rest) := by
      rw [skipWs_append_ws ws _ hws]
      show skipWs ('f' :: ("alse".toList ++ rest)) = 'f' :: ("alse".toList ++ rest)
      exact skipWs_cons_of_not_ws _ _ (by decide)
    have he : expectLit ['a', 'l', 's', 'e'] ('a' :: 'l' :: 's' :: 'e' :: rest) = some rest :=
      expectLit_append ['a', 'l', 's', 'e'] rest
    rw [parseJsonVal.eq_def]
    simp [hskip, he]

theorem rt_str (m ind : Nat) (s : String) (ws rest : List Char)
    (hws : ∀ c ∈ ws, isJsonWs c = true) (hwf : wfString s = true) :
    parseJsonVal (m + 1) (ws ++ (dumpVal ind (Json.str s) ++ rest)) =
      some (Json.str s, rest) := by
  have hdump : dumpVal ind (Json.str s) ++ rest =
      '"' :: (s.toList.flatMap jsonEscapeChar ++ '"' :: rest) := by
    show jsonQuote s ++ rest = _
    simp [jsonQuote]
  have hskip : skipWs (ws ++ (dumpVal ind (Json.str s) ++ rest)) =
      '"' :: (s.toList.flatMap jsonEscapeChar ++ '"' :: rest) := by
    rw [skipWs_append_ws ws _ hws, hdump]
    exact skipWs_cons_of_not_ws _ _ (by decide)
  have hbody : parseStringBody (s.data.flatMap jsonEscapeChar ++ '"' :: rest) =
      some (s.data, rest) := parseStringBody_quote s.toList hwf rest
  rw [parseJsonVal.eq_def]
  simp [hskip, hbody]


/-- Statement of the value-level roundtrip at a given fuel. -/
def RoundtripVal (fuel : Nat) : Prop :=
  ∀ ws ind v rest, (∀ c ∈ ws, isJsonWs c = true) → wfJson v = true →
    (∀ c, rest.head? = some c → isDigitChar c = false) →
    (ws ++ (dumpVal ind v ++ rest)).length < fuel →
    parseJsonVal fuel (ws ++ (dumpVal ind v ++ rest)) = some (v, rest)

/-- Statement of the array-tail roundtrip at a given fuel. -/
def RoundtripArrTail (fuel : Nat) : Prop :=
  ∀ ind xs rest, wfJsonList xs = true →
    (arrTailInput ind xs rest).length < fuel →
    parseArrTail fuel (arrTailInput ind xs rest) = some (xs, rest)

/-- Statement of the object-tail roundtrip at a given fuel. -/
def RoundtripObjTail (fuel : Nat) : Prop :=
  ∀ ind es rest, wfJsonEntries es = true →
    (objTailInput ind es rest).length < fuel →
    parseObjTail fuel (objTailInput ind es rest) = some (es, rest)

theorem arrTailInput_guard (ind : Nat) (xs : List Json) (rest : List Char) :
    ∀ c, (arrTailInput ind xs rest).head? = some c → isDigitChar c = false := by
  obtain ⟨ch, tt, hch, hdg⟩ := arrTailInput_head ind xs rest
  intro c hc
  rw [hch] at hc
  simp only [List.head?_cons, Option.some.injEq] at hc
  rw [← hc]
  exact hdg

theorem objTailInput_guard (ind : Nat) (es : List (String × Json)) (rest : List Char) :
    ∀ c, (objTailInput ind es rest).head? = some c → isDigitChar c = false := by
  obtain ⟨ch, tt, hch, hdg⟩ := objTailInput_head ind es rest
  intro c hc
  rw [hch] at hc
  simp only [List.head?_cons, Option.some.injEq] at hc
  rw [← hc]
  exact hdg

theorem rt_arr (m : Nat) (ihv : RoundtripVal m) (ihat : RoundtripArrTail m)
    (ws : List Char) (ind : Nat) (items : List Json) (rest : List Char)
    (hws : ∀ c ∈ ws, isJsonWs c = true) (hwf : wfJsonList items = true)
    (hlen : (ws ++ (dumpVal ind (Json.arr items) ++ rest)).length < m + 1) :
    parseJsonVal (m + 1) (ws ++ (dumpVal ind (Json.arr items) ++ rest)) =
      some (Json.arr items, rest) := by
  cases items with
  | nil =>
    have hskip : skipWs (ws ++ (dumpVal ind (Json.arr []) ++ rest)) = '[' :: (']' :: rest) := by
      rw [skipWs_append_ws ws _ hws]
      show skipWs ('[' :: (']' :: rest)) = '[' :: (']' :: rest)
      exact skipWs_cons_of_not_ws _ _ (by decide)
    have hsk2 : skipWs (']' :: rest) = ']' :: rest := skipWs_cons_of_not_ws _ _ (by decide)
    rw [parseJsonVal.eq_def]
    simp [hskip, hsk2, (by decide : isDigitChar '[' = false)]
  | cons x xs =>
    have hx : wfJson x = true := by
      have := hwf
      rw [wfJsonList, Bool.and_eq_true] at this
      exact this.1
    have hxs : wfJsonList xs = true := by
      have := hwf
      rw [wfJsonList, Bool.and_eq_true] at this
      exact this.2
    obtain ⟨c0, t0, hct, hnw0, hnrb, hnrb2⟩ := dumpVal_head_ok (ind + 2) x
    have hdump : dumpVal ind (Json.arr (x :: xs)) ++ rest =
        '[' :: ('\n' :: (indentSp (ind + 2) ++
          (dumpVal (ind + 2) x ++ arrTailInput ind xs rest))) := by
      show ('[' :: (dumpArrItems (ind + 2) (x :: xs) ++
        '\n' :: (indentSp ind ++ [']']))) ++ rest = _
      cases xs <;> simp [dumpArrItems, arrTailInput]
    have hskip : skipWs (ws ++ (dumpVal ind (Json.arr (x :: xs)) ++ rest)) =
        '[' :: ('\n' :: (indentSp (ind + 2) ++
          (dumpVal (ind + 2) x ++ arrTailInput ind xs rest))) := by
      rw [skipWs_append_ws ws _ hws, hdump]
      exact skipWs_cons_of_not_ws _ _ (by decide)
    have hwsx : ∀ c ∈ ('\n' :: indentSp (ind + 2)), isJsonWs c = true := by
      intro c hc
      rcases List.mem_cons.mp hc with h | h
      · rw [h]; rfl
      · exact indentSp_all_ws _ c h
    have hskipr : skipWs ('\n' :: (indentSp (ind + 2) ++
        (dumpVal (ind + 2) x ++ arrTailInput ind xs rest))) =
        c0 :: (t0 ++ arrTailInput ind xs rest) := by
      show skipWs (('\n' :: indentSp (ind + 2)) ++
        (dumpVal (ind + 2) x ++ arrTailInput ind xs rest)) = _
      rw [skipWs_append_ws _ _ hwsx, hct, List.cons_append]
      exact skipWs_cons_of_not_ws _ _ hnw0
    have hlen0 : (ws ++ (dumpVal ind (Json.arr (x :: xs)) ++ rest)).length =
        ws.length + (2 + (indentSp (ind + 2)).length +
          ((dumpVal (ind + 2) x).length + (arrTailInput ind xs rest).length)) := by
      have h1 : (ws ++ (dumpVal ind (Json.arr (x :: xs)) ++ rest)).length =
          ws.length + (dumpVal ind (Json.arr (x :: xs)) ++ rest).length := by
        rw [List.length_append]
      rw [h1, hdump]
      simp [List.length_append]
      omega
    have hlen1 : (('\n' :: indentSp (ind + 2)) ++
        (dumpVal (ind + 2) x ++ arrTailInput ind xs rest)).length < m := by
      simp [List.length_append]
      omega
    have helem0 := ihv ('\n' :: indentSp (ind + 2)) (ind + 2) x
      (arrTailInput ind xs rest) hwsx hx (arrTailInput_guard ind xs rest) hlen1
    have helem : parseJsonVal m ('\n' :: (indentSp (ind + 2) ++
        (dumpVal (ind + 2) x ++ arrTailInput ind xs rest))) =
        some (x, arrTailInput ind xs rest) := helem0
    have htail : parseArrTail m (arrTailInput ind xs rest) = some (xs, rest) :=
      ihat ind xs rest hxs (by omega)
    rw [parseJsonVal.eq_def]
    simp [hskip, hskipr, hnrb, helem, htail, (by decide : isDigitChar '[' = false)]


theorem rt_arrTail (m : Nat) (ihv : RoundtripVal m) (ihat : RoundtripArrTail m)
    (ind : Nat) (xs : List Json) (rest : List Char)
    (hwf : wfJsonList xs = true)
    (hlen : (arrTailInput ind xs rest).length < m + 1) :
    parseArrTail (m + 1) (arrTailInput ind xs rest) = some (xs, rest) := by
  have hwsi : ∀ c ∈ ('\n' :: indentSp ind), isJsonWs c = true := by
    intro c hc
    rcases List.mem_cons.mp hc with h | h
    · rw [h]; rfl
    · exact indentSp_all_ws _ c h
  cases xs with
  | nil =>
    have hskip : skipWs (arrTailInput ind [] rest) = ']' :: rest := by
      show skipWs (('\n' :: indentSp ind) ++ (']' :: rest)) = ']' :: rest
      rw [skipWs_append_ws _ _ hwsi]
      exact skipWs_cons_of_not_ws _ _ (by decide)
    rw [parseArrTail.eq_def]
    simp [hskip]
  | cons y ys =>
    have hy : wfJson y = true := by
      have := hwf
      rw [wfJsonList, Bool.and_eq_true] at this
      exact this.1
    have hys : wfJsonList ys = true := by
      have := hwf
      rw [wfJsonList, Bool.and_eq_true] at this
      exact this.2
    have hwsx : ∀ c ∈ ('\n' :: indentSp (ind + 2)), isJsonWs c = true := by
      intro c hc
      rcases List.mem_cons.mp hc with h | h
      · rw [h]; rfl
      · exact indentSp_all_ws _ c h
    have hr : dumpArrItems (ind + 2) (y :: ys) ++ '\n' :: (indentSp ind ++ ']' :: rest) =
        '\n' :: (indentSp (ind + 2) ++ (dumpVal (ind + 2) y ++ arrTailInput ind ys rest)) := by
      cases ys <;> simp [dumpArrItems, arrTailInput]
    have hskip : skipWs (arrTailInput ind (y :: ys) rest) =
        ',' :: (dumpArrItems (ind + 2) (y :: ys) ++ '\n' :: (indentSp ind ++ ']' :: rest)) := by
      show skipWs (',' ::
        (dumpArrItems (ind + 2) (y :: ys) ++ '\n' :: (indentSp ind ++ ']' :: rest))) = _
      exact skipWs_cons_of_not_ws _ _ (by decide)
    have hlentot : (arrTailInput ind (y :: ys) rest).length =
        1 + (dumpArrItems (ind + 2) (y :: ys) ++
          '\n' :: (indentSp ind ++ ']' :: rest)).length := by
      show (',' :: (dumpArrItems (ind + 2) (y :: ys) ++
        '\n' :: (indentSp ind ++ ']' :: rest))).length = _
      rw [List.length_cons]
      omega
    have hleneq := congrArg List.length hr
    have hlen' := hlen
    rw [hlentot] at hlen'
    simp only [List.length_append, List.length_cons] at hleneq hlen'
    have hlen1 : (('\n' :: indentSp (ind + 2)) ++
        (dumpVal (ind + 2) y ++ arrTailInput ind ys rest)).length < m := by
      simp only [List.length_append, List.length_cons]
      omega
    have helem : parseJsonVal m ('\n' :: (indentSp (ind + 2) ++
        (dumpVal (ind + 2) y ++ arrTailInput ind ys rest))) =
        some (y, arrTailInput ind ys rest) :=
      ihv ('\n' :: indentSp (ind + 2)) (ind + 2) y (arrTailInput ind ys rest)
        hwsx hy (arrTailInput_guard ind ys rest) hlen1
    have htail : parseArrTail m (arrTailInput ind ys rest) = some (ys, rest) :=
      ihat ind ys rest hys (by
        simp only [List.length_append, List.length_cons] at hlen1
        omega)
    rw [parseArrTail.eq_def]
    simp [hskip, hr, helem, htail]


theorem rt_obj (m : Nat) (ihv : RoundtripVal m) (ihot : RoundtripObjTail m)
    (ws : List Char) (ind : Nat) (entries : List (String × Json)) (rest : List Char)
    (hws : ∀ c ∈ ws, isJsonWs c = true)
    (hwf : wfJsonEntries entries = true)
    (hlen : (ws ++ (dumpVal ind (Json.obj entries) ++ rest)).length < m + 1) :
    parseJsonVal (m + 1) (ws ++ (dumpVal ind (Json.obj entries) ++ rest)) =
      some (Json.obj entries, rest) := by
  cases entries with
  | nil =>
    have hskip : skipWs (ws ++ (dumpVal ind (Json.obj []) ++ rest)) =
        lbraceChar :: (rbraceChar :: rest) := by
      rw [skipWs_append_ws ws _ hws]
      show skipWs (lbraceChar :: (rbraceChar :: rest)) = lbraceChar :: (rbraceChar :: rest)
      exact skipWs_cons_of_not_ws _ _ (by decide)
    have hsk2 : skipWs (rbraceChar :: rest) = rbraceChar :: rest :=
      skipWs_cons_of_not_ws _ _ (by decide)
    rw [parseJsonVal.eq_def]
    simp [hskip, hsk2, (by decide : ¬ (lbraceChar = 'n')), (by decide : ¬ (lbraceChar = 't')),
      (by decide : ¬ (lbraceChar = 'f')), (by decide : ¬ (lbraceChar = '"')),
      (by decide : ¬ (lbraceChar = '-')), (by decide : isDigitChar lbraceChar = false),
      (by decide : ¬ (lbraceChar = '['))]
  | cons e es =>
    have hk : wfString e.1 = true := by
      have := hwf
      rw [wfJsonEntries, Bool.and_eq_true, Bool.and_eq_true] at this
      exact this.1.1
    have hv : wfJson e.2 = true := by
      have := hwf
      rw [wfJsonEntries, Bool.and_eq_true, Bool.and_eq_true] at this
      exact this.1.2
    have hes : wfJsonEntries es = true := by
      have := hwf
      rw [wfJsonEntries, Bool.and_eq_true, Bool.and_eq_true] at this
      exact this.2
    have hwsx : ∀ c ∈ ('\n' :: indentSp (ind + 2)), isJsonWs c = true := by
      intro c hc
      rcases List.mem_cons.mp hc with h | h
      · rw [h]; rfl
      · exact indentSp_all_ws _ c h
    have hdump : dumpVal ind (Json.obj (e :: es)) ++ rest =
        lbraceChar :: ('\n' :: (indentSp (ind + 2) ++
          ('"' :: (e.1.data.flatMap jsonEscapeChar ++ '"' ::
            (':' :: (' ' :: (dumpVal (ind + 2) e.2 ++ objTailInput ind es rest))))))) := by
      show (lbraceChar :: (dumpObjItems (ind + 2) (e :: es) ++
        '\n' :: (indentSp ind ++ [rbraceChar]))) ++ rest = _
      cases es <;> simp [dumpObjItems, objTailInput, jsonQuote]
    have hskip : skipWs (ws ++ (dumpVal ind (Json.obj (e :: es)) ++ rest)) =
        lbraceChar :: ('\n' :: (indentSp (ind + 2) ++
          ('"' :: (e.1.data.flatMap jsonEscapeChar ++ '"' ::
            (':' :: (' ' :: (dumpVal (ind + 2) e.2 ++ objTailInput ind es rest))))))) := by
      rw [skipWs_append_ws ws _ hws, hdump]
      exact skipWs_cons_of_not_ws _ _ (by decide)
    have hskipr : skipWs ('\n' :: (indentSp (ind + 2) ++
        ('"' :: (e.1.data.flatMap jsonEscapeChar ++ '"' ::
          (':' :: (' ' :: (dumpVal (ind + 2) e.2 ++ objTailInput ind es rest))))))) =
        '"' :: (e.1.data.flatMap jsonEscapeChar ++ '"' ::
          (':' :: (' ' :: (dumpVal (ind + 2) e.2 ++ objTailInput ind es rest)))) := by
      show skipWs (('\n' :: indentSp (ind + 2)) ++
        ('"' :: (e.1.data.flatMap jsonEscapeChar ++ '"' ::
          (':' :: (' ' :: (dumpVal (ind + 2) e.2 ++ objTailInput ind es rest)))))) = _
      rw [skipWs_append_ws _ _ hwsx]
      exact skipWs_cons_of_not_ws _ _ (by decide)
    have hkey : parseStringBody (e.1.data.flatMap jsonEscapeChar ++ '"' ::
        (':' :: (' ' :: (dumpVal (ind + 2) e.2 ++ objTailInput ind es rest)))) =
        some (e.1.data, ':' :: (' ' :: (dumpVal (ind + 2) e.2 ++ objTailInput ind es rest))) :=
      parseStringBody_quote e.1.toList hk _
    have hskc : skipWs (':' :: (' ' :: (dumpVal (ind + 2) e.2 ++ objTailInput ind es rest))) =
        ':' :: (' ' :: (dumpVal (ind + 2) e.2 ++ objTailInput ind es rest)) :=
      skipWs_cons_of_not_ws _ _ (by decide)
    have hleneq := congrArg List.length hdump
    have hlentot := hlen
    simp only [List.length_append] at hlentot
    simp only [List.length_append, List.length_cons] at hleneq
    have hlen1 : ((' ' :: []) ++ (dumpVal (ind + 2) e.2 ++ objTailInput ind es rest)).length
        < m := by
      simp only [List.length_append, List.length_cons, List.length_nil]
      simp only [List.length_flatMap] at hleneq
      omega
    have hval : parseJsonVal m (' ' :: (dumpVal (ind + 2) e.2 ++ objTailInput ind es rest)) =
        some (e.2, objTailInput ind es rest) :=
      ihv [' '] (ind + 2) e.2 (objTailInput ind es rest) (by decide) hv
        (objTailInput_guard ind es rest) hlen1
    have htail : parseObjTail m (objTailInput ind es rest) = some (es, rest) :=
      ihot ind es rest hes (by
        simp only [List.length_append, List.length_cons, List.length_nil] at hlen1
        omega)
    rw [parseJsonVal.eq_def]
    simp [hskip, hskipr, hkey, hskc, hval, htail,
      (by decide : ¬ (lbraceChar = 'n')), (by decide : ¬ (lbraceChar = 't')),
      (by decide : ¬ (lbraceChar = 'f')), (by decide : ¬ (lbraceChar = '"')),
      (by decide : ¬ (lbraceChar = '-')), (by decide : isDigitChar lbraceChar = false),
      (by decide : ¬ (lbraceChar = '[')), (by decide : ¬ ('"' = rbraceChar))]


theorem rt_objTail (m : Nat) (ihv : RoundtripVal m) (ihot : RoundtripObjTail m)
    (ind : Nat) (es : List (String × Json)) (rest : List Char)
    (hwf : wfJsonEntries es = true)
    (hlen : (objTailInput ind es rest).length < m + 1) :
    parseObjTail (m + 1) (objTailInput ind es rest) = some (es, rest) := by
  have hwsi : ∀ c ∈ ('\n' :: indentSp ind), isJsonWs c = true := by
    intro c hc
    rcases List.mem_cons.mp hc with h | h
    · rw [h]; rfl
    · exact indentSp_all_ws _ c h
  cases es with
  | nil =>
    have hskip : skipWs (objTailInput ind [] rest) = rbraceChar :: rest := by
      show skipWs (('\n' :: indentSp ind) ++ (rbraceChar :: rest)) = rbraceChar :: rest
      rw [skipWs_append_ws _ _ hwsi]
      exact skipWs_cons_of_not_ws _ _ (by decide)
    rw [parseObjTail.eq_def]
    simp [hskip]
  | cons e es' =>
    have hk : wfString e.1 = true := by
      have := hwf
      rw [wfJsonEntries, Bool.and_eq_true, Bool.and_eq_true] at this
      exact this.1.1
    have hv : wfJson e.2 = true := by
      have := hwf
      rw [wfJsonEntries, Bool.and_eq_true, Bool.and_eq_true] at this
      exact this.1.2
    have hes : wfJsonEntries es' = true := by
      have := hwf
      rw [wfJsonEntries, Bool.and_eq_true, Bool.and_eq_true] at this
      exact this.2
    have hwsx : ∀ c ∈ ('\n' :: indentSp (ind + 2)), isJsonWs c = true := by
      intro c hc
      rcases List.mem_cons.mp hc with h | h
      · rw [h]; rfl
      · exact indentSp_all_ws _ c h
    have hr : dumpObjItems (ind + 2) (e :: es') ++
        '\n' :: (indentSp ind ++ rbraceChar :: rest) =
        '\n' :: (indentSp (ind + 2) ++
          ('"' :: (e.1.data.flatMap jsonEscapeChar ++ '"' ::
            (':' :: (' ' :: (dumpVal (ind + 2) e.2 ++ objTailInput ind es' rest)))))) := by
      cases es' <;> simp [dumpObjItems, objTailInput, jsonQuote]
    have hskip : skipWs (objTailInput ind (e :: es') rest) =
        ',' :: (dumpObjItems (ind + 2) (e :: es') ++
          '\n' :: (indentSp ind ++ rbraceChar :: rest)) := by
      show skipWs (',' :: (dumpObjItems (ind + 2) (e :: es') ++
        '\n' :: (indentSp ind ++ rbraceChar :: rest))) = _
      exact skipWs_cons_of_not_ws _ _ (by decide)
    have hskipr : skipWs ('\n' :: (indentSp (ind + 2) ++
        ('"' :: (e.1.data.flatMap jsonEscapeChar ++ '"' ::
          (':' :: (' ' :: (dumpVal (ind + 2) e.2 ++ objTailInput ind es' rest))))))) =
        '"' :: (e.1.data.flatMap jsonEscapeChar ++ '"' ::
          (':' :: (' ' :: (dumpVal (ind + 2) e.2 ++ objTailInput ind es' rest)))) := by
      show skipWs (('\n' :: indentSp (ind + 2)) ++
        ('"' :: (e.1.data.flatMap jsonEscapeChar ++ '"' ::
          (':' :: (' ' :: (dumpVal (ind + 2) e.2 ++ objTailInput ind es' rest)))))) = _
      rw [skipWs_append_ws _ _ hwsx]
      exact skipWs_cons_of_not_ws _ _ (by decide)
    have hkey : parseStringBody (e.1.data.flatMap jsonEscapeChar ++ '"' ::
        (':' :: (' ' :: (dumpVal (ind + 2) e.2 ++ objTailInput ind es' rest)))) =
        some (e.1.data, ':' :: (' ' :: (dumpVal (ind + 2) e.2 ++ objTailInput ind es' rest))) :=
      parseStringBody_quote e.1.toList hk _
    have hskc : skipWs (':' :: (' ' :: (dumpVal (ind + 2) e.2 ++ objTailInput ind es' rest))) =
        ':' :: (' ' :: (dumpVal (ind + 2) e.2 ++ objTailInput ind es' rest)) :=
      skipWs_cons_of_not_ws _ _ (by decide)
    have hlentot := hlen
    have hshape : objTailInput ind (e :: es') rest =
        ',' :: (dumpObjItems (ind + 2) (e :: es') ++
          '\n' :: (indentSp ind ++ rbraceChar :: rest)) := rfl
    rw [hshape] at hlentot
    have hleneq := congrArg List.length hr
    simp only [List.length_append, List.length_cons, List.length_flatMap] at hleneq hlentot
    have hlen1 : ((' ' :: []) ++ (dumpVal (ind + 2) e.2 ++ objTailInput ind es' rest)).length
        < m := by
      simp only [List.length_append, List.length_cons, List.length_nil]
      omega
    have hval : parseJsonVal m (' ' :: (dumpVal (ind + 2) e.2 ++ objTailInput ind es' rest)) =
        some (e.2, objTailInput ind es' rest) :=
      ihv [' '] (ind + 2) e.2 (objTailInput ind es' rest) (by decide) hv
        (objTailInput_guard ind es' rest) hlen1
    have htail : parseObjTail m (objTailInput ind es' rest) = some (es', rest) :=
      ihot ind es' rest hes (by
        simp only [List.length_append, List.length_cons, List.length_nil] at hlen1
        omega)
    rw [parseObjTail.eq_def]
    simp [hskip, hr, hskipr, hkey, hskc, hval, htail,
      (by decide : ¬ (',' = rbraceChar)), (by decide : ¬ ('"' = rbraceChar))]


/-- The serializer/parser roundtrip at every fuel, for all three mutual
parsing functions at once. -/
theorem dumpParse_roundtrip (fuel : Nat) :
    RoundtripVal fuel ∧ RoundtripArrTail fuel ∧ RoundtripObjTail fuel := by
  induction fuel with
  | zero =>
    refine ⟨?_, ?_, ?_⟩
    · intro ws ind v rest _ _ _ hlen
      omega
    · intro ind xs rest _ hlen
      omega
    · intro ind es rest _ hlen
      omega
  | succ m ih =>
    obtain ⟨ihv, ihat, ihot⟩ := ih
    refine ⟨?_, ?_, ?_⟩
    · intro ws ind v rest hws hwf hguard hlen
      cases v with
      | null => exact rt_null m ind ws rest hws
      | bool b => exact rt_bool m ind b ws rest hws
      | num n => exact rt_num m ind n ws rest hws hguard
      | str s => exact rt_str m ind s ws rest hws hwf
      | arr items => exact rt_arr m ihv ihat ws ind items rest hws hwf hlen
      | obj entries =>
        have hentries : wfJsonEntries entries = true := by
          rw [wfJson, Bool.and_eq_true] at hwf
          exact hwf.1
        exact rt_obj m ihv ihot ws ind entries rest hws hentries hlen
    · intro ind xs rest hwf hlen
      exact rt_arrTail m ihv ihat ind xs rest hwf hlen
    · intro ind es rest hwf hlen
      exact rt_objTail m ihv ihot ind es rest hwf hlen

/-- Parsing the saved text of a well-formed value recovers the value. -/
theorem parseJsonTop_save (v : Json) (hwf : wfJson v = true) :
    parseJsonTop (saveCacheStr v) = some v := by
  have h := (dumpParse_roundtrip ((dumpVal 0 v).length + 1)).1 [] 0 v [] (by simp) hwf
    (by simp) (by simp)
  have h2 : parseJsonVal ((dumpVal 0 v).length + 1) (dumpVal 0 v) = some (v, []) := by
    have e : ([] : List Char) ++ (dumpVal 0 v ++ []) = dumpVal 0 v := by simp
    rw [e] at h
    exact h
  have hs : (saveCacheStr v).toList = dumpVal 0 v := rfl
  rw [parseJsonTop, hs, h2]
  rfl


def cacheC8 : Json :=
  Json.obj [("730", Json.obj [("name", Json.str "Counter-Strike 2"), ("appid", Json.num 730),
    ("type", Json.str "game")])]

/-- A truncated cache file text: an opening brace, a key, a colon, and
nothing else. -/
def corruptC8 : String := "\x7b \"730\": "

/-- C8: for every well-formed cache content — the file text `save_cache`
writes for a well-formed value, i.e. the `json.dump(indent=2)` image of a
Python dict with representable strings — the save/load pair round-trips
exactly: `save_cache(load_cache(X)) == X`, and `load_cache` recovers the
saved value itself; a missing cache file and any corrupt or truncated file
text (anything `json.load` rejects) yield the empty dictionary instead of
raising. -/
theorem c8_cache_roundtrip :
    (∀ v : Json, wfJson v = true →
        saveCacheStr (loadCache (some (saveCacheStr v))) = saveCacheStr v ∧
        loadCache (some (saveCacheStr v)) = v) ∧
    loadCache none = Json.obj [] ∧
    (∀ s : String, parseJsonTop s = none → loadCache (some s) = Json.obj []) := by
  refine ⟨?_, rfl, ?_⟩
  · intro v hwf
    have hload : loadCache (some (saveCacheStr v)) = v := by
      simp [loadCache, parseJsonTop_save v hwf]
    exact ⟨by rw [hload], hload⟩
  · intro s hs
    simp [loadCache, hs]

/-- Witness for C8 at a concrete well-formed cache and a concrete truncated
file text. -/
theorem c8_cache_roundtrip_witness :
    wfJson cacheC8 = true ∧
    saveCacheStr (loadCache (some (saveCacheStr cacheC8))) = saveCacheStr cacheC8 ∧
    loadCache (some (saveCacheStr cacheC8)) = cacheC8 ∧
    loadCache none = Json.obj [] ∧
    parseJsonTop corruptC8 = none ∧
    loadCache (some corruptC8) = Json.obj [] :=
  ⟨by decide, (c8_cache_roundtrip.1 cacheC8 (by decide)).1,
   (c8_cache_roundtrip.1 cacheC8 (by decide)).2,
   c8_cache_roundtrip.2.1,
   rfl,
   c8_cache_roundtrip.2.2 corruptC8 rfl⟩

end SlopScraper
